import Mathlib

/-!
Verification of the `ccr` lexer (`src/lexer/scanner.rs`, `src/lexer/types.rs`,
`src/lexer/token.rs`) against its natural-language specification.

The Rust scanner walks a `&str` through a `Chars` iterator.  We embed the
source text as a `List Char` and the iterator position as an explicit index:

* `Scanner.pos`      = `source.len() - chars.as_str().len()`  (bytes consumed);
* `Scanner.tokStart` = `source.len() - remaining_len`         (start of the
  token currently being scanned; `remaining_len` is only ever written by
  `reset_pos`).

Offsets count characters; for the ASCII inputs exercised by the spec this
coincides with the Rust byte offsets.  Panicking operations of the Rust code
(`unwrap` on `from_str_radix`, `todo!()`, out-of-range string slices) are
modelled by `Option`, with `none` marking the panic.
-/

namespace Ccr

/-- `scanner.rs`: `pub const EOF: char = '\0';` -/
def EOF : Char := Char.ofNat 0

/-- `types.rs` `Span { start, end }`.  The Rust field `end` is a Lean keyword,
so it is called `stop` here. -/
structure Span where
  start : Nat
  stop : Nat
deriving DecidableEq, Repr

/-- `types.rs`: `pub fn is_empty(&self) -> bool { self.start + self.end == 0 }` -/
def Span.is_empty (sp : Span) : Bool := sp.start + sp.stop == 0

/-- `types.rs`: `pub fn len(&self) -> usize { self.start + self.end }` -/
def Span.len (sp : Span) : Nat := sp.start + sp.stop

/-- `types.rs` `enum Base` (discriminants 2, 8, 10, 16). -/
inductive Base
  | Binary
  | Octal
  | Decimal
  | Hexadecimal
deriving DecidableEq, Repr

/-- `base as u32`. -/
def Base.toNat : Base → Nat
  | .Binary => 2
  | .Octal => 8
  | .Decimal => 10
  | .Hexadecimal => 16

/-- `types.rs` `enum LiteralKind`. -/
inductive LiteralKind
  | Int (base : Base)
  | Float (base : Base)
  | Char
  | Str
  | Byte
  | Literal
deriving DecidableEq, Repr

/-- `token.rs` `enum CTokenKind`. -/
inductive CTokenKind
  | LineComment
  | BlockComment
  | Whitespace
  | Ident
  | Literal (kind : LiteralKind) (suffix_start : Nat)
  | Header
  | SemiColon
  | Comma
  | Dot
  | LeftParen
  | RightParen
  | LeftBrace
  | RightBrace
  | LeftBraket
  | RightBracket
  | Pound
  | Colon
  | Equal
  | EqualEqual
  | Bang
  | BangEqual
  | Lt
  | LtEqual
  | GtEqual
  | Gt
  | Minus
  | MinusMinus
  | Plus
  | PlusPlus
  | And
  | Or
  | Star
  | Slash
  | Caret
  | Percent
  | Arrow
  | Tilde
  | Unknown
  | Eof
deriving DecidableEq, Repr

/-- `types.rs` `enum Symbol`.  The float payload keeps the raw lexeme text
(`f64` itself is out of scope; no claim touches float values). -/
inductive Symbol
  | Int (sym : Nat)
  | Float (sym : List Char)
  | Char (sym : Char)
  | String (sym : List Char)
  | Byte (sym : Nat)
  | Literal (sym : List Char)
  | None
deriving DecidableEq, Repr

/-- `token.rs` `struct CToken`.  `symbol = none` marks a panic during
decoding (`todo!()`, a failed `unwrap`, or an out-of-range slice). -/
structure CToken where
  kind : CTokenKind
  symbol : Option Symbol
  span : Span
deriving DecidableEq, Repr

/-- `types.rs`: `is_identifier` — `self.is_ascii_alphabetic() || *self == '_'`. -/
def isAsciiAlphabetic (c : Char) : Bool :=
  ('a' ≤ c && c ≤ 'z') || ('A' ≤ c && c ≤ 'Z')

def isIdentifierChar (c : Char) : Bool := isAsciiAlphabetic c || c = '_'

/-- `char::is_ascii_digit`. -/
def isAsciiDigit (c : Char) : Bool := '0' ≤ c && c ≤ '9'

/-- `char::is_ascii_hexdigit`. -/
def isAsciiHexdigit (c : Char) : Bool :=
  isAsciiDigit c || ('a' ≤ c && c ≤ 'f') || ('A' ≤ c && c ≤ 'F')

/-- `scanner.rs` `numbers`: `|c| matches!(c, '0'..='1')`. -/
def isBinDigit (c : Char) : Bool := '0' ≤ c && c ≤ '1'

/-- `scanner.rs` `numbers`: `|c| matches!(c, '0'..='7')`. -/
def isOctDigit (c : Char) : Bool := '0' ≤ c && c ≤ '7'

/-- `scanner.rs` `is_whitespace`: `matches!(c, '\n' | '\r' | ' ' | '\t')`. -/
def isWhitespaceChar (c : Char) : Bool :=
  c = '\n' || c = '\r' || c = ' ' || c = '\t'

/-- `char::to_digit` (without the radix bound, which is checked separately):
`'0'..='9'` map to 0–9, letters map to 10–35. -/
def charToDigit (c : Char) : Option Nat :=
  if '0' ≤ c && c ≤ '9' then some (c.toNat - '0'.toNat)
  else if 'a' ≤ c && c ≤ 'z' then some (c.toNat - 'a'.toNat + 10)
  else if 'A' ≤ c && c ≤ 'Z' then some (c.toNat - 'A'.toNat + 10)
  else none

/-- `types.rs` `is_cdigit`: `self.is_digit(base as u32)`. -/
def isCDigit (c : Char) (base : Base) : Bool :=
  match charToDigit c with
  | some d => d < base.toNat
  | none => false

/-- `usize::MAX + 1` on the 64-bit targets the crate builds for. -/
def usizeBound : Nat := 2 ^ 64

/-- Digit-accumulation loop of `usize::from_str_radix`: `checked_mul` /
`checked_add` fail (`none`) as soon as the accumulator would leave `usize`. -/
def fromStrRadixAux (radix : Nat) : Nat → List Char → Option Nat
  | acc, [] => some acc
  | acc, c :: cs =>
    match charToDigit c with
    | none => none
    | some d =>
      if d < radix then
        if acc * radix + d < usizeBound then fromStrRadixAux radix (acc * radix + d) cs
        else none
      else none

/-- `usize::from_str_radix`.  The empty string is an error.  (The scanner only
ever passes digit runs, never a leading sign, so sign handling is omitted.) -/
def fromStrRadix (s : List Char) (radix : Nat) : Option Nat :=
  if s.isEmpty then none else fromStrRadixAux radix 0 s

/-- Value accumulated by the `from_str_radix` loop starting from `acc`. -/
def radixValFrom (radix acc : Nat) (s : List Char) : Nat :=
  s.foldl (fun a c => a * radix + (charToDigit c).getD 0) acc

/-- The value of a digit run read in the given radix (total companion of
`fromStrRadix`, used to state its characterization). -/
def radixVal (radix : Nat) (s : List Char) : Nat :=
  radixValFrom radix 0 s

/-- Rust string slicing `&s[a..b]`, which panics (`none`) when `a > b` or
`b > s.len()`. -/
def strSlice (l : List Char) (a b : Nat) : Option (List Char) :=
  if a ≤ b && b ≤ l.length then some ((l.take b).drop a) else none

/-- `scanner.rs` `symbolize` (the part after the `&self.source[start..end]`
slice): decodes a lexeme according to the token kind.  `none` models a panic:
`todo!()` for char/byte literals, a failed `unwrap` of `from_str_radix`, or an
out-of-range slice. -/
def symbolize (kind : CTokenKind) (lexeme : List Char) : Option Symbol :=
  match kind with
  | .Literal k suffix_start =>
    match k with
    | .Int base =>
      (strSlice lexeme suffix_start lexeme.length).bind fun digits =>
        (fromStrRadix digits base.toNat).map Symbol.Int
    | .Float _ => some (Symbol.Float lexeme)
    | .Char => none
    | .Str =>
      (strSlice lexeme suffix_start (lexeme.length - 1)).map Symbol.String
    | .Byte => none
    | .Literal => some (Symbol.Literal lexeme)
  | _ => some (Symbol.Literal lexeme)

/-- `scanner.rs` `struct Scanner`, reparameterized (see the file comment):
`pos` is the number of consumed characters, `tokStart` the offset recorded by
the last `reset_pos`. -/
structure Scanner where
  source : List Char
  pos : Nat
  tokStart : Nat
  line : Nat
deriving DecidableEq, Repr

namespace Scanner

/-- `Scanner::new`. -/
def new (s : List Char) : Scanner := ⟨s, 0, 0, 1⟩

/-- `first()`: one-character lookahead, `EOF` when exhausted. -/
def first (st : Scanner) : Char := (st.source.drop st.pos).headD EOF

/-- `is_eof()`. -/
def isEof (st : Scanner) : Bool := (st.source.drop st.pos).isEmpty

/-- `advance()`. -/
def advance (st : Scanner) : Option Char × Scanner :=
  match (st.source.drop st.pos).head? with
  | some c => (some c, { st with pos := st.pos + 1 })
  | none => (none, st)

/-- `advance_while(predicate)`: consumes the maximal run of characters
satisfying the predicate (the loop stops at end of input regardless). -/
def advanceWhile (st : Scanner) (p : Char → Bool) : Scanner :=
  { st with pos := st.pos + ((st.source.drop st.pos).takeWhile p).length }

/-- `reset_pos()`. -/
def resetPos (st : Scanner) : Scanner := { st with tokStart := st.pos }

/-- The lexeme `&self.source[start..end]` used by `tokenize`. -/
def lexemeAt (s : List Char) (start stop : Nat) : List Char :=
  (s.take stop).drop start

/-- `tokenize(kind)`: builds the token for `[tokStart, pos)`. -/
def tokenize (st : Scanner) (kind : CTokenKind) : CToken :=
  CToken.mk kind (symbolize kind (lexemeAt st.source st.tokStart st.pos))
    (Span.mk st.tokStart st.pos)

/-- `header()`. -/
def header (st : Scanner) : CTokenKind × Scanner :=
  (CTokenKind.Header, st.advanceWhile (fun c => c ≠ '>'))

/-- `identifier()`. -/
def identifier (st : Scanner) : CTokenKind × Scanner :=
  (CTokenKind.Ident, st.advanceWhile isIdentifierChar)

/-- `numbers(base)`. -/
def numbers (st : Scanner) (base : Base) : CTokenKind × Scanner :=
  match base with
  | .Binary => (CTokenKind.Literal (.Int .Binary) 2, st.advanceWhile isBinDigit)
  | .Octal => (CTokenKind.Literal (.Int .Octal) 0, st.advanceWhile isOctDigit)
  | .Decimal =>
    let st := st.advanceWhile isAsciiDigit
    if st.first = '.' then
      let st := (st.advance).2
      let st := st.advanceWhile isAsciiDigit
      (CTokenKind.Literal (.Float .Decimal) 0, st)
    else
      (CTokenKind.Literal (.Int .Decimal) 0, st)
  | .Hexadecimal =>
    (CTokenKind.Literal (.Int .Hexadecimal) 2, st.advanceWhile isAsciiHexdigit)

/-- `line_comment()`. -/
def lineComment (st : Scanner) : CTokenKind × Scanner :=
  let st := st.advanceWhile (fun c => c ≠ '\n')
  (CTokenKind.LineComment, { st with line := st.line + 1 })

/-- Loop body of `block_comment()`: number of characters the
`while let Some(c) = self.advance()` loop consumes.  The consumed character
`c` closes the comment when it is `*` and the lookahead (`first()`, which is
`EOF` on the empty rest) is `/`; the closing `/` is then consumed too. -/
def blockCommentCount : List Char → Nat
  | [] => 0
  | c :: cs => if c = '*' ∧ cs.headD EOF = '/' then 2 else 1 + blockCommentCount cs

/-- `block_comment()` (the loop bumps `line` on every consumed newline). -/
def blockComment (st : Scanner) : CTokenKind × Scanner :=
  let n := blockCommentCount (st.source.drop st.pos)
  (CTokenKind.BlockComment,
    { st with pos := st.pos + n,
              line := st.line + (((st.source.drop st.pos).take n).count '\n') })

/-- `string()`. -/
def string (st : Scanner) : CTokenKind × Scanner :=
  let st := st.advanceWhile (fun c => c ≠ '"')
  let st := (st.advance).2
  (CTokenKind.Literal .Str 1, st)

/-- `skip_whitespace()` (its `Whitespace` kind result is discarded by the
caller). -/
def skipWhitespace (st : Scanner) : Scanner :=
  (st.advanceWhile isWhitespaceChar).resetPos

/-- `is_whitespace_line`, minus its `line` side effect (applied at the call
site in `nextToken`). -/
def isWhitespaceLine (c : Char) : Bool :=
  c = '\n' || c = '\r' || c = ' ' || c = '\t'

/-- The big `match first_char` of `next_token` (the classifier). -/
def classify (st : Scanner) (c : Char) : CTokenKind × Scanner :=
  if c = '/' then
    if st.first = '/' then st.lineComment
    else if st.first = '*' then st.blockComment
    else (CTokenKind.Slash, st)
  else if isIdentifierChar c then st.identifier
  else if c = '0' then
    if st.first = 'b' then ((st.advance).2).numbers .Binary
    else if st.first = 'x' then ((st.advance).2).numbers .Hexadecimal
    else if '0' ≤ st.first && st.first ≤ '7' then st.numbers .Octal
    else st.numbers .Decimal
  else if '0' ≤ c && c ≤ '9' then st.numbers .Decimal
  else if c = ';' then (CTokenKind.SemiColon, st)
  else if c = ',' then (CTokenKind.Comma, st)
  else if c = '.' then (CTokenKind.Dot, st)
  else if c = '(' then (CTokenKind.LeftParen, st)
  else if c = ')' then (CTokenKind.RightParen, st)
  else if c = '\x7b' then (CTokenKind.LeftBrace, st)
  else if c = '\x7d' then (CTokenKind.RightBrace, st)
  else if c = '[' then (CTokenKind.LeftBraket, st)
  else if c = ']' then (CTokenKind.RightBracket, st)
  else if c = '#' then (CTokenKind.Pound, st)
  else if c = '*' then (CTokenKind.Star, st)
  else if c = '&' then (CTokenKind.And, st)
  else if c = '|' then (CTokenKind.Or, st)
  else if c = '^' then (CTokenKind.Caret, st)
  else if c = '~' then (CTokenKind.Tilde, st)
  else if c = '"' then st.string
  else if c = '-' then
    (if st.first = '-' then CTokenKind.MinusMinus
     else if st.first = '>' then CTokenKind.Arrow
     else CTokenKind.Minus, st)
  else if c = '+' then
    (if st.first = '+' then CTokenKind.PlusPlus else CTokenKind.Plus, st)
  else if c = '<' then
    if isAsciiAlphabetic st.first then st.header
    else (if st.first = '=' then CTokenKind.LtEqual else CTokenKind.Lt, st)
  else if c = '>' then
    (if st.first = '=' then CTokenKind.GtEqual else CTokenKind.Gt, st)
  else if c = '=' then
    (if st.first = '=' then CTokenKind.EqualEqual else CTokenKind.Equal, st)
  else if c = '!' then
    (if st.first = '=' then CTokenKind.BangEqual else CTokenKind.Bang, st)
  else (CTokenKind.Unknown, st)

/-- Tail of `next_token` after classification: `tokenize` then `reset_pos`. -/
def classifyFinish (st : Scanner) (c : Char) : CToken × Scanner :=
  let p := st.classify c
  (p.2.tokenize p.1, p.2.resetPos)

/-- Body of `next_token` after the first `advance` has produced `c`:
the whitespace branch (lines 122–131 of `scanner.rs`) or direct
classification. -/
def nextTokenCore (st : Scanner) (c : Char) : CToken × Scanner :=
  if isWhitespaceLine c then
    let st := st.skipWhitespace
    match st.advance with
    | (none, st2) => (st2.tokenize .Eof, st2)
    | (some c2, st2) => st2.classifyFinish c2
  else st.classifyFinish c

/-- `next_token()`. -/
def nextToken (st : Scanner) : CToken × Scanner :=
  match st.advance with
  | (none, st) => (CToken.mk .Eof (some .None) (Span.mk 0 0), st)
  | (some c, st) =>
    let st := if c = '\n' then { st with line := st.line + 1 } else st
    nextTokenCore st c

end Scanner

/-- Repeated `next_token` until (and including) the first `Eof` token.  The
fuel is only a termination device; `scan` supplies enough of it for the whole
input (proved below). -/
def scanAux : Nat → Scanner → List CToken
  | 0, _ => []
  | fuel + 1, st =>
    let p := st.nextToken
    if p.1.kind = CTokenKind.Eof then [p.1] else p.1 :: scanAux fuel p.2

/-- A scan to exhaustion at the `next_token` level: all produced tokens, the
terminating `Eof` token included. -/
def scan (s : List Char) : List CToken := scanAux (s.length + 1) (Scanner.new s)

/-- `iterate()` (and hence `test()`): the token sequence handed to the caller.
The `std::iter::from_fn` closure stops at the first `Eof` token and does not
yield it. -/
def tokensToCaller (s : List Char) : List CToken :=
  (scan s).takeWhile (fun t => t.kind ≠ CTokenKind.Eof)

/-- Spans of a token list are chained above a lower bound: each token starts
no earlier than the bound, is nonempty, and the next token starts no earlier
than it ends. -/
def spansOrdered : Nat → List CToken → Prop
  | _, [] => True
  | k, t :: ts => k ≤ t.span.start ∧ t.span.start < t.span.stop ∧ spansOrdered t.span.stop ts

/-- A byte offset lies in a token's span. -/
def spanContains (sp : Span) (i : Nat) : Prop := sp.start ≤ i ∧ i < sp.stop

/-- Digit discipline of integer-literal tokens: the lexeme past the recorded
prefix length consists of digits valid for the radix, and the decoded symbol
is exactly `from_str_radix` of that digit run. -/
def intTokenOk (s : List Char) (t : CToken) : Prop :=
  ∀ base suf, t.kind = CTokenKind.Literal (.Int base) suf →
    suf ≤ (Scanner.lexemeAt s t.span.start t.span.stop).length ∧
    (∀ x ∈ (Scanner.lexemeAt s t.span.start t.span.stop).drop suf, isCDigit x base) ∧
    t.symbol =
      (fromStrRadix ((Scanner.lexemeAt s t.span.start t.span.stop).drop suf) base.toNat).map
        Symbol.Int

/-! ## List and character utilities -/

theorem takeWhile_length_le {α : Type} (p : α → Bool) (l : List α) :
    (l.takeWhile p).length ≤ l.length :=
  (List.takeWhile_prefix p).length_le

theorem take_takeWhile_length {α : Type} (p : α → Bool) (l : List α) :
    l.take (l.takeWhile p).length = l.takeWhile p :=
  (List.prefix_iff_eq_take.mp (List.takeWhile_prefix p)).symm

theorem takeWhile_getD_pred (p : Char → Bool) :
    ∀ (l : List Char) (j : Nat), j < (l.takeWhile p).length → p (l.getD j EOF) := by
  intro l
  induction l with
  | nil => intro j hj; simp [List.takeWhile] at hj
  | cons a t ih =>
    intro j hj
    by_cases hp : p a
    · cases j with
      | zero => simp [hp]
      | succ j =>
        simp only [List.takeWhile, hp, List.length_cons] at hj
        simpa using ih j (by omega)
    · simp [List.takeWhile, hp] at hj

theorem getD_drop (l : List Char) (n j : Nat) :
    (l.drop n).getD j EOF = l.getD (n + j) EOF := by
  simp [List.getD_eq_getElem?_getD, List.getElem?_drop]

theorem char_le_iff {a b : Char} : a ≤ b ↔ a.toNat ≤ b.toNat := by
  rw [Char.le_def, UInt32.le_def, BitVec.le_def]; exact Iff.rfl

/-- `l.headD EOF = x` for a non-NUL `x` forces `l` to start with `x`. -/
theorem headD_eq_cons {l : List Char} {x : Char} (h : l.headD EOF = x) (hx : x ≠ EOF) :
    l = x :: l.tail := by
  cases l with
  | nil => exact absurd h.symm hx
  | cons a t => simp at h; simp [h]

/-! ## Digit classes and `from_str_radix` -/

theorem charToDigit_digit {c : Char} (h0 : 48 ≤ c.toNat) (h9 : c.toNat ≤ 57) :
    charToDigit c = some (c.toNat - 48) := by
  have hc : ('0' ≤ c && c ≤ '9') = true := by
    simp only [Bool.and_eq_true, decide_eq_true_eq, char_le_iff]
    exact ⟨h0, h9⟩
  unfold charToDigit
  rw [if_pos hc]
  rfl

theorem charToDigit_lower {c : Char} (ha : 97 ≤ c.toNat) (hz : c.toNat ≤ 122) :
    charToDigit c = some (c.toNat - 97 + 10) := by
  have hn9 : ¬ (('0' ≤ c && c ≤ '9') = true) := by
    simp only [Bool.and_eq_true, decide_eq_true_eq, char_le_iff, not_and]
    intro
    show ¬ c.toNat ≤ 57
    omega
  have hca : ('a' ≤ c && c ≤ 'z') = true := by
    simp only [Bool.and_eq_true, decide_eq_true_eq, char_le_iff]
    exact ⟨ha, hz⟩
  unfold charToDigit
  rw [if_neg hn9, if_pos hca]
  rfl

theorem charToDigit_upper {c : Char} (hA : 65 ≤ c.toNat) (hZ : c.toNat ≤ 90) :
    charToDigit c = some (c.toNat - 65 + 10) := by
  have hn9 : ¬ (('0' ≤ c && c ≤ '9') = true) := by
    simp only [Bool.and_eq_true, decide_eq_true_eq, char_le_iff, not_and]
    intro
    show ¬ c.toNat ≤ 57
    omega
  have hna : ¬ (('a' ≤ c && c ≤ 'z') = true) := by
    simp only [Bool.and_eq_true, decide_eq_true_eq, char_le_iff, not_and]
    intro h
    exact absurd h (by show ¬ 97 ≤ c.toNat; omega)
  have hcA : ('A' ≤ c && c ≤ 'Z') = true := by
    simp only [Bool.and_eq_true, decide_eq_true_eq, char_le_iff]
    exact ⟨hA, hZ⟩
  unfold charToDigit
  rw [if_neg hn9, if_neg hna, if_pos hcA]
  rfl

theorem isCDigit_of_isBinDigit {c : Char} (h : isBinDigit c) : isCDigit c .Binary := by
  simp only [isBinDigit, Bool.and_eq_true, decide_eq_true_eq, char_le_iff,
    show ('0' : Char).toNat = 48 from rfl, show ('1' : Char).toNat = 49 from rfl] at h
  unfold isCDigit
  rw [charToDigit_digit (by omega) (by omega)]
  simp only [Base.toNat, decide_eq_true_eq]
  omega

theorem isCDigit_of_isOctDigit {c : Char} (h : isOctDigit c) : isCDigit c .Octal := by
  simp only [isOctDigit, Bool.and_eq_true, decide_eq_true_eq, char_le_iff,
    show ('0' : Char).toNat = 48 from rfl, show ('7' : Char).toNat = 55 from rfl] at h
  unfold isCDigit
  rw [charToDigit_digit (by omega) (by omega)]
  simp only [Base.toNat, decide_eq_true_eq]
  omega

theorem isCDigit_of_isAsciiDigit {c : Char} (h : isAsciiDigit c) : isCDigit c .Decimal := by
  simp only [isAsciiDigit, Bool.and_eq_true, decide_eq_true_eq, char_le_iff,
    show ('0' : Char).toNat = 48 from rfl, show ('9' : Char).toNat = 57 from rfl] at h
  unfold isCDigit
  rw [charToDigit_digit (by omega) (by omega)]
  simp only [Base.toNat, decide_eq_true_eq]
  omega

theorem isCDigit_of_isAsciiHexdigit {c : Char} (h : isAsciiHexdigit c) :
    isCDigit c .Hexadecimal := by
  simp only [isAsciiHexdigit, isAsciiDigit, Bool.or_eq_true, Bool.and_eq_true,
    decide_eq_true_eq, char_le_iff, show ('0' : Char).toNat = 48 from rfl,
    show ('9' : Char).toNat = 57 from rfl, show ('a' : Char).toNat = 97 from rfl,
    show ('f' : Char).toNat = 102 from rfl, show ('A' : Char).toNat = 65 from rfl,
    show ('F' : Char).toNat = 70 from rfl] at h
  unfold isCDigit
  rcases h with (h | h) | h
  · rw [charToDigit_digit (by omega) (by omega)]
    simp only [Base.toNat, decide_eq_true_eq]
    omega
  · rw [charToDigit_lower (by omega) (by omega)]
    simp only [Base.toNat, decide_eq_true_eq]
    omega
  · rw [charToDigit_upper (by omega) (by omega)]
    simp only [Base.toNat, decide_eq_true_eq]
    omega

/-- The accumulator of the `from_str_radix` loop never decreases. -/
theorem radixValFrom_le (radix : Nat) (hr : 1 ≤ radix) :
    ∀ (l : List Char) (acc : Nat), acc ≤ radixValFrom radix acc l := by
  intro l
  induction l with
  | nil => intro acc; simp [radixValFrom]
  | cons c cs ih =>
    intro acc
    simp only [radixValFrom, List.foldl_cons]
    calc acc ≤ acc * radix + (charToDigit c).getD 0 := by
          have : acc * 1 ≤ acc * radix := Nat.mul_le_mul_left acc hr
          omega
      _ ≤ _ := ih (acc * radix + (charToDigit c).getD 0)

theorem base_toNat_pos (base : Base) : 1 ≤ base.toNat := by
  cases base <;> simp [Base.toNat]

theorem fromStrRadixAux_spec (base : Base) :
    ∀ (l : List Char) (acc : Nat), acc < usizeBound → (∀ c ∈ l, isCDigit c base) →
      fromStrRadixAux base.toNat acc l =
        if radixValFrom base.toNat acc l < usizeBound then some (radixValFrom base.toNat acc l)
        else none := by
  intro l
  induction l with
  | nil =>
    intro acc hacc _
    simp [fromStrRadixAux, radixValFrom, hacc]
  | cons c cs ih =>
    intro acc _ hv
    have hc := hv c (by simp)
    rcases hd : charToDigit c with _ | d
    · simp [isCDigit, hd] at hc
    have hcd : d < base.toNat := by simpa [isCDigit, hd] using hc
    simp only [fromStrRadixAux, hd, radixValFrom, List.foldl_cons, Option.getD_some]
    rw [if_pos hcd]
    by_cases hb : acc * base.toNat + d < usizeBound
    · rw [if_pos hb, ih (acc * base.toNat + d) hb (fun x hx => hv x (by simp [hx]))]
      simp [radixValFrom]
    · rw [if_neg hb]
      have hmono := radixValFrom_le base.toNat (base_toNat_pos base) cs (acc * base.toNat + d)
      rw [if_neg (by simp only [radixValFrom] at hmono ⊢; omega)]

/-- Characterization of `usize::from_str_radix` on a run of valid digits:
it fails exactly on the empty run or on `usize` overflow, and otherwise
returns the radix value of the run. -/
theorem fromStrRadix_spec (base : Base) (l : List Char) (h : ∀ c ∈ l, isCDigit c base) :
    fromStrRadix l base.toNat =
      if l = [] ∨ usizeBound ≤ radixVal base.toNat l then none
      else some (radixVal base.toNat l) := by
  cases l with
  | nil => simp [fromStrRadix]
  | cons c cs =>
    simp only [fromStrRadix, List.isEmpty_cons, Bool.false_eq_true, if_false, radixVal]
    rw [fromStrRadixAux_spec base _ 0 (by unfold usizeBound; omega) h]
    by_cases hb : radixValFrom base.toNat 0 (c :: cs) < usizeBound
    · rw [if_pos hb, if_neg]
      push_neg
      exact ⟨by simp, hb⟩
    · rw [if_neg hb, if_pos (Or.inr (Nat.le_of_not_lt hb))]


/-! ## Step facts about the scanner operations -/

namespace Scanner

/-- What one classifier sub-scan may do to the state: keep `source` and
`tokStart`, and move `pos` forward without passing the end of input. -/
def StepOk (st st' : Scanner) : Prop :=
  st'.source = st.source ∧ st'.tokStart = st.tokStart ∧ st.pos ≤ st'.pos ∧
    (st.pos ≤ st.source.length → st'.pos ≤ st.source.length)

theorem stepOk_refl (st : Scanner) : StepOk st st :=
  ⟨rfl, rfl, Nat.le_refl _, fun h => h⟩

theorem stepOk_trans {s1 s2 s3 : Scanner} (h12 : StepOk s1 s2) (h23 : StepOk s2 s3) :
    StepOk s1 s3 := by
  obtain ⟨e1, e2, e3, e4⟩ := h12
  obtain ⟨f1, f2, f3, f4⟩ := h23
  refine ⟨f1.trans e1, f2.trans e2, e3.trans f3, fun h => ?_⟩
  have := f4 (by rw [e1]; exact e4 h)
  rw [e1] at this
  exact this

theorem advanceWhile_stepOk (st : Scanner) (p : Char → Bool) :
    StepOk st (st.advanceWhile p) := by
  refine ⟨rfl, rfl, Nat.le_add_right _ _, fun h => ?_⟩
  show st.pos + ((st.source.drop st.pos).takeWhile p).length ≤ st.source.length
  have h1 := takeWhile_length_le p (st.source.drop st.pos)
  rw [List.length_drop] at h1
  omega

theorem advance_snd_stepOk (st : Scanner) : StepOk st (st.advance).2 := by
  unfold advance
  cases hh : (st.source.drop st.pos).head? with
  | none => exact stepOk_refl st
  | some c =>
    have hne : st.source.drop st.pos ≠ [] := by
      intro he
      rw [he] at hh
      exact Option.noConfusion hh
    have hlt : st.pos < st.source.length := by
      by_contra hge
      exact hne (List.drop_eq_nil_iff.mpr (Nat.le_of_not_lt hge))
    exact ⟨rfl, rfl, Nat.le_succ _, fun _ => hlt⟩

theorem blockCommentCount_le : ∀ l : List Char, blockCommentCount l ≤ l.length := by
  intro l
  induction l with
  | nil => simp [blockCommentCount]
  | cons a t ih =>
    rw [blockCommentCount]
    by_cases h : a = '*' ∧ t.headD EOF = '/'
    · rw [if_pos h]
      rcases h with ⟨_, h2⟩
      have ht : t = '/' :: t.tail := headD_eq_cons h2 (by decide)
      rw [ht]
      simp only [List.length_cons]
      omega
    · rw [if_neg h]
      simp only [List.length_cons]
      omega

theorem lineComment_stepOk (st : Scanner) : StepOk st (st.lineComment).2 := by
  unfold lineComment
  exact advanceWhile_stepOk st _

theorem blockComment_stepOk (st : Scanner) : StepOk st (st.blockComment).2 := by
  unfold blockComment
  refine ⟨rfl, rfl, Nat.le_add_right _ _, fun h => ?_⟩
  have h1 := blockCommentCount_le (st.source.drop st.pos)
  rw [List.length_drop] at h1
  show st.pos + blockCommentCount (st.source.drop st.pos) ≤ st.source.length
  omega

theorem identifier_stepOk (st : Scanner) : StepOk st (st.identifier).2 := by
  unfold identifier
  exact advanceWhile_stepOk st _

theorem header_stepOk (st : Scanner) : StepOk st (st.header).2 := by
  unfold header
  exact advanceWhile_stepOk st _

theorem string_stepOk (st : Scanner) : StepOk st (st.string).2 := by
  unfold string
  exact stepOk_trans (advanceWhile_stepOk st _) (advance_snd_stepOk _)

theorem numbers_stepOk (st : Scanner) (base : Base) : StepOk st (st.numbers base).2 := by
  unfold numbers
  cases base with
  | Binary => exact advanceWhile_stepOk st _
  | Octal => exact advanceWhile_stepOk st _
  | Hexadecimal => exact advanceWhile_stepOk st _
  | Decimal =>
    simp only
    split
    · exact stepOk_trans (advanceWhile_stepOk st _)
        (stepOk_trans (advance_snd_stepOk _) (advanceWhile_stepOk _ _))
    · exact advanceWhile_stepOk st _


/-- Case-analysis principle for `classify`, one hypothesis per decision
branch of the `match first_char` in `next_token`.  Each handler receives the
branch conditions that later proofs need. -/
theorem classify_cases (st : Scanner) (c : Char) (P : CTokenKind × Scanner → Prop)
    (hLC : st.first = '/' → P st.lineComment)
    (hBC : st.first = '*' → P st.blockComment)
    (hSlash : P (CTokenKind.Slash, st))
    (hIdent : isIdentifierChar c → P st.identifier)
    (hBin : c = '0' → st.first = 'b' → P (((st.advance).2).numbers .Binary))
    (hHex : c = '0' → st.first = 'x' → P (((st.advance).2).numbers .Hexadecimal))
    (hOct : c = '0' → ('0' ≤ st.first && st.first ≤ '7') = true → P (st.numbers .Octal))
    (hZeroDec : c = '0' → P (st.numbers .Decimal))
    (hDec : ('0' ≤ c && c ≤ '9') = true → P (st.numbers .Decimal))
    (hSemi : P (CTokenKind.SemiColon, st))
    (hComma : P (CTokenKind.Comma, st))
    (hDot : P (CTokenKind.Dot, st))
    (hLP : P (CTokenKind.LeftParen, st))
    (hRP : P (CTokenKind.RightParen, st))
    (hLB : P (CTokenKind.LeftBrace, st))
    (hRB : P (CTokenKind.RightBrace, st))
    (hLK : P (CTokenKind.LeftBraket, st))
    (hRK : P (CTokenKind.RightBracket, st))
    (hPound : P (CTokenKind.Pound, st))
    (hStar : P (CTokenKind.Star, st))
    (hAnd : P (CTokenKind.And, st))
    (hOr : P (CTokenKind.Or, st))
    (hCaret : P (CTokenKind.Caret, st))
    (hTilde : P (CTokenKind.Tilde, st))
    (hStr : c = '"' → P st.string)
    (hMM : P (CTokenKind.MinusMinus, st))
    (hArrow : P (CTokenKind.Arrow, st))
    (hMinus : P (CTokenKind.Minus, st))
    (hPP : P (CTokenKind.PlusPlus, st))
    (hPlus : P (CTokenKind.Plus, st))
    (hHeader : isAsciiAlphabetic st.first → P st.header)
    (hLtEq : P (CTokenKind.LtEqual, st))
    (hLt : P (CTokenKind.Lt, st))
    (hGtEq : P (CTokenKind.GtEqual, st))
    (hGt : P (CTokenKind.Gt, st))
    (hEqEq : P (CTokenKind.EqualEqual, st))
    (hEq : P (CTokenKind.Equal, st))
    (hBangEq : P (CTokenKind.BangEqual, st))
    (hBang : P (CTokenKind.Bang, st))
    (hUnk : P (CTokenKind.Unknown, st)) :
    P (st.classify c) := by
  unfold classify
  by_cases q1 : c = '/'
  · rw [if_pos q1]
    by_cases r1 : st.first = '/'
    · rw [if_pos r1]; exact hLC r1
    rw [if_neg r1]
    by_cases r2 : st.first = '*'
    · rw [if_pos r2]; exact hBC r2
    rw [if_neg r2]; exact hSlash
  rw [if_neg q1]
  by_cases q2 : isIdentifierChar c = true
  · rw [if_pos q2]; exact hIdent q2
  rw [if_neg q2]
  by_cases q3 : c = '0'
  · rw [if_pos q3]
    by_cases r3 : st.first = 'b'
    · rw [if_pos r3]; exact hBin q3 r3
    rw [if_neg r3]
    by_cases r4 : st.first = 'x'
    · rw [if_pos r4]; exact hHex q3 r4
    rw [if_neg r4]
    by_cases r5 : ('0' ≤ st.first && st.first ≤ '7') = true
    · rw [if_pos r5]; exact hOct q3 r5
    rw [if_neg r5]; exact hZeroDec q3
  rw [if_neg q3]
  by_cases q4 : ('0' ≤ c && c ≤ '9') = true
  · rw [if_pos q4]; exact hDec q4
  rw [if_neg q4]
  by_cases q5 : c = ';'
  · rw [if_pos q5]; exact hSemi
  rw [if_neg q5]
  by_cases q6 : c = ','
  · rw [if_pos q6]; exact hComma
  rw [if_neg q6]
  by_cases q7 : c = '.'
  · rw [if_pos q7]; exact hDot
  rw [if_neg q7]
  by_cases q8 : c = '('
  · rw [if_pos q8]; exact hLP
  rw [if_neg q8]
  by_cases q9 : c = ')'
  · rw [if_pos q9]; exact hRP
  rw [if_neg q9]
  by_cases q10 : c = '\x7b'
  · rw [if_pos q10]; exact hLB
  rw [if_neg q10]
  by_cases q11 : c = '\x7d'
  · rw [if_pos q11]; exact hRB
  rw [if_neg q11]
  by_cases q12 : c = '['
  · rw [if_pos q12]; exact hLK
  rw [if_neg q12]
  by_cases q13 : c = ']'
  · rw [if_pos q13]; exact hRK
  rw [if_neg q13]
  by_cases q14 : c = '#'
  · rw [if_pos q14]; exact hPound
  rw [if_neg q14]
  by_cases q15 : c = '*'
  · rw [if_pos q15]; exact hStar
  rw [if_neg q15]
  by_cases q16 : c = '&'
  · rw [if_pos q16]; exact hAnd
  rw [if_neg q16]
  by_cases q17 : c = '|'
  · rw [if_pos q17]; exact hOr
  rw [if_neg q17]
  by_cases q18 : c = '^'
  · rw [if_pos q18]; exact hCaret
  rw [if_neg q18]
  by_cases q19 : c = '~'
  · rw [if_pos q19]; exact hTilde
  rw [if_neg q19]
  by_cases q20 : c = '"'
  · rw [if_pos q20]; exact hStr q20
  rw [if_neg q20]
  by_cases q21 : c = '-'
  · rw [if_pos q21]
    by_cases r6 : st.first = '-'
    · rw [if_pos r6]; exact hMM
    rw [if_neg r6]
    by_cases r7 : st.first = '>'
    · rw [if_pos r7]; exact hArrow
    rw [if_neg r7]; exact hMinus
  rw [if_neg q21]
  by_cases q22 : c = '+'
  · rw [if_pos q22]
    by_cases r8 : st.first = '+'
    · rw [if_pos r8]; exact hPP
    rw [if_neg r8]; exact hPlus
  rw [if_neg q22]
  by_cases q23 : c = '<'
  · rw [if_pos q23]
    by_cases r9 : isAsciiAlphabetic st.first = true
    · rw [if_pos r9]; exact hHeader r9
    rw [if_neg r9]
    by_cases r10 : st.first = '='
    · rw [if_pos r10]; exact hLtEq
    rw [if_neg r10]; exact hLt
  rw [if_neg q23]
  by_cases q24 : c = '>'
  · rw [if_pos q24]
    by_cases r11 : st.first = '='
    · rw [if_pos r11]; exact hGtEq
    rw [if_neg r11]; exact hGt
  rw [if_neg q24]
  by_cases q25 : c = '='
  · rw [if_pos q25]
    by_cases r12 : st.first = '='
    · rw [if_pos r12]; exact hEqEq
    rw [if_neg r12]; exact hEq
  rw [if_neg q25]
  by_cases q26 : c = '!'
  · rw [if_pos q26]
    by_cases r13 : st.first = '='
    · rw [if_pos r13]; exact hBangEq
    rw [if_neg r13]; exact hBang
  rw [if_neg q26]
  exact hUnk

theorem classify_stepOk (st : Scanner) (c : Char) : StepOk st (st.classify c).2 := by
  refine classify_cases st c (fun p => StepOk st p.2) ?_ ?_ ?_ ?_ ?_ ?_ ?_ ?_ ?_ ?_ ?_ ?_ ?_
    ?_ ?_ ?_ ?_ ?_ ?_ ?_ ?_ ?_ ?_ ?_ ?_ ?_ ?_ ?_ ?_ ?_ ?_ ?_ ?_ ?_ ?_ ?_ ?_ ?_ ?_ ?_
  all_goals intros
  all_goals
    first
      | exact stepOk_refl st
      | exact lineComment_stepOk st
      | exact blockComment_stepOk st
      | exact identifier_stepOk st
      | exact header_stepOk st
      | exact string_stepOk st
      | exact numbers_stepOk st _
      | exact stepOk_trans (advance_snd_stepOk st) (numbers_stepOk _ _)

theorem lineComment_fst (st : Scanner) : (st.lineComment).1 = CTokenKind.LineComment := rfl

theorem blockComment_fst (st : Scanner) : (st.blockComment).1 = CTokenKind.BlockComment := rfl

theorem identifier_fst (st : Scanner) : (st.identifier).1 = CTokenKind.Ident := rfl

theorem header_fst (st : Scanner) : (st.header).1 = CTokenKind.Header := rfl

theorem string_fst (st : Scanner) : (st.string).1 = CTokenKind.Literal .Str 1 := rfl

theorem numbers_bin_fst (st : Scanner) :
    (st.numbers .Binary).1 = CTokenKind.Literal (.Int .Binary) 2 := rfl

theorem numbers_oct_fst (st : Scanner) :
    (st.numbers .Octal).1 = CTokenKind.Literal (.Int .Octal) 0 := rfl

theorem numbers_hex_fst (st : Scanner) :
    (st.numbers .Hexadecimal).1 = CTokenKind.Literal (.Int .Hexadecimal) 2 := rfl

theorem numbers_dec_fst (st : Scanner) :
    (st.numbers .Decimal).1 =
      (if (st.advanceWhile isAsciiDigit).first = '.' then CTokenKind.Literal (.Float .Decimal) 0
       else CTokenKind.Literal (.Int .Decimal) 0) := by
  unfold numbers
  dsimp only
  split <;> rfl

theorem numbers_fst_ne_eof (st : Scanner) (base : Base) :
    (st.numbers base).1 ≠ CTokenKind.Eof := by
  cases base
  · rw [numbers_bin_fst]; simp
  · rw [numbers_oct_fst]; simp
  · rw [numbers_dec_fst]
    by_cases hc : (st.advanceWhile isAsciiDigit).first = '.' <;> simp [hc]
  · rw [numbers_hex_fst]; simp

theorem classify_ne_eof (st : Scanner) (c : Char) : (st.classify c).1 ≠ CTokenKind.Eof := by
  refine classify_cases st c (fun p => p.1 ≠ CTokenKind.Eof) ?_ ?_ ?_ ?_ ?_ ?_ ?_ ?_ ?_ ?_
    ?_ ?_ ?_ ?_ ?_ ?_ ?_ ?_ ?_ ?_ ?_ ?_ ?_ ?_ ?_ ?_ ?_ ?_ ?_ ?_ ?_ ?_ ?_ ?_ ?_ ?_ ?_ ?_ ?_ ?_
  all_goals intros
  all_goals
    first
      | exact numbers_fst_ne_eof _ _
      | simp [lineComment_fst, blockComment_fst, identifier_fst, header_fst, string_fst]


/-! ## The `next_token` step lemma -/

theorem advance_eq_some (st : Scanner) (h : st.pos < st.source.length) :
    st.advance = (some (st.source.getD st.pos EOF), { st with pos := st.pos + 1 }) := by
  unfold advance
  rw [List.head?_drop]
  rw [List.getElem?_eq_getElem h]
  simp [List.getD_eq_getElem?_getD, List.getElem?_eq_getElem h]

theorem advance_eq_none (st : Scanner) (h : st.source.length ≤ st.pos) :
    st.advance = (none, st) := by
  unfold advance
  rw [List.head?_drop]
  rw [List.getElem?_eq_none h]

theorem skipWhitespace_eq (st : Scanner) :
    st.skipWhitespace =
      { st with
          pos := st.pos + ((st.source.drop st.pos).takeWhile isWhitespaceChar).length,
          tokStart := st.pos + ((st.source.drop st.pos).takeWhile isWhitespaceChar).length } :=
  rfl

theorem tokenize_eq (st : Scanner) (kind : CTokenKind) :
    st.tokenize kind =
      CToken.mk kind (symbolize kind (lexemeAt st.source st.tokStart st.pos))
        (Span.mk st.tokStart st.pos) :=
  rfl

theorem classifyFinish_spec (st : Scanner) (c : Char)
    (hts : st.pos = st.tokStart + 1) (hlen : st.pos ≤ st.source.length) :
    (st.classifyFinish c).2.source = st.source ∧
    (st.classifyFinish c).1.kind ≠ CTokenKind.Eof ∧
    (st.classifyFinish c).1.span.start = st.tokStart ∧
    (st.classifyFinish c).1.span.stop = (st.classifyFinish c).2.pos ∧
    st.pos ≤ (st.classifyFinish c).2.pos ∧
    (st.classifyFinish c).2.pos ≤ st.source.length ∧
    (st.classifyFinish c).2.tokStart = (st.classifyFinish c).2.pos := by
  obtain ⟨hsrc, htk, hmono, hbound⟩ := classify_stepOk st c
  have hne := classify_ne_eof st c
  unfold classifyFinish
  simp only [tokenize_eq, resetPos]
  exact ⟨hsrc, hne, htk, trivial, hmono, hbound hlen, trivial⟩

theorem lexemeAt_self (s : List Char) (a : Nat) : lexemeAt s a a = [] := by
  unfold lexemeAt
  rw [List.drop_eq_nil_iff]
  calc (s.take a).length ≤ a := by rw [List.length_take]; omega
    _ ≤ a := Nat.le_refl a

/-- The whitespace branch of `next_token` (entered when the advanced character
`c` was whitespace; `st` is the state after that advance, so the token starts
at `st.tokStart = st.pos - 1`). -/
theorem nextTokenCore_spec (st : Scanner) (c : Char)
    (hpos : st.pos = st.tokStart + 1) (hlen : st.pos ≤ st.source.length)
    (hc : st.source.getD st.tokStart EOF = c) :
    (nextTokenCore st c).2.source = st.source ∧
    (((nextTokenCore st c).1.kind = CTokenKind.Eof ∧
       (nextTokenCore st c).1 =
         CToken.mk .Eof (some (.Literal []))
           (Span.mk st.source.length st.source.length) ∧
       (∀ i, st.tokStart ≤ i → i < st.source.length →
         isWhitespaceChar (st.source.getD i EOF)))
     ∨
     ((nextTokenCore st c).1.kind ≠ CTokenKind.Eof ∧
      st.tokStart ≤ (nextTokenCore st c).1.span.start ∧
      (nextTokenCore st c).1.span.start < (nextTokenCore st c).1.span.stop ∧
      (nextTokenCore st c).1.span.stop = (nextTokenCore st c).2.pos ∧
      (nextTokenCore st c).2.pos ≤ st.source.length ∧
      (nextTokenCore st c).2.tokStart = (nextTokenCore st c).2.pos ∧
      (∀ i, st.tokStart ≤ i → i < (nextTokenCore st c).1.span.start →
        isWhitespaceChar (st.source.getD i EOF)))) := by
  by_cases hws : isWhitespaceLine c = true
  · -- whitespace: skip it, then either end of input or classify the next char
    unfold nextTokenCore
    rw [if_pos hws]
    dsimp only
    have hKle : ((st.source.drop st.pos).takeWhile isWhitespaceChar).length ≤
        st.source.length - st.pos := by
      have := takeWhile_length_le isWhitespaceChar (st.source.drop st.pos)
      rwa [List.length_drop] at this
    have hws_all : ∀ i, st.tokStart ≤ i →
        i < st.pos + ((st.source.drop st.pos).takeWhile isWhitespaceChar).length →
        isWhitespaceChar (st.source.getD i EOF) := by
      intro i h1 h2
      by_cases hi : i = st.tokStart
      · subst hi
        rw [hc]
        exact hws
      · have h1' : st.pos ≤ i := by omega
        have hj : i - st.pos <
            ((st.source.drop st.pos).takeWhile isWhitespaceChar).length := by omega
        have hp := takeWhile_getD_pred isWhitespaceChar (st.source.drop st.pos) (i - st.pos) hj
        rw [getD_drop] at hp
        rwa [Nat.add_sub_cancel' h1'] at hp
    rw [skipWhitespace_eq]
    by_cases h2 : st.source.length ≤
        st.pos + ((st.source.drop st.pos).takeWhile isWhitespaceChar).length
    · -- trailing whitespace runs to end of input: the `tokenize(Eof)` branch
      have hmeq : st.pos + ((st.source.drop st.pos).takeWhile isWhitespaceChar).length =
          st.source.length := by omega
      rw [advance_eq_none _ (by simpa using h2)]
      refine ⟨rfl, Or.inl ⟨rfl, ?_, ?_⟩⟩
      · show CToken.mk _ _ _ = _
        dsimp only
        rw [hmeq, lexemeAt_self]
        rfl
      · intro i hi hi'
        exact hws_all i hi (by omega)
    · -- a non-whitespace character follows: classify it
      have hlt2 : st.pos + ((st.source.drop st.pos).takeWhile isWhitespaceChar).length <
          st.source.length := by omega
      rw [advance_eq_some _ (by simpa using hlt2)]
      obtain ⟨e1, e2, e3, e4, e5, e6, e7⟩ :=
        classifyFinish_spec
          { st with
              pos := st.pos + ((st.source.drop st.pos).takeWhile isWhitespaceChar).length + 1,
              tokStart := st.pos + ((st.source.drop st.pos).takeWhile isWhitespaceChar).length }
          ((st.source.getD
            (st.pos + ((st.source.drop st.pos).takeWhile isWhitespaceChar).length) EOF))
          rfl (by simpa using hlt2)
      refine ⟨e1, Or.inr ⟨e2, ?_, ?_, e4, e6, e7, ?_⟩⟩
      · rw [e3]
        show st.tokStart ≤ st.pos + _
        omega
      · rw [e3, e4]
        show st.pos + _ < _
        calc st.pos + ((st.source.drop st.pos).takeWhile isWhitespaceChar).length <
              st.pos + ((st.source.drop st.pos).takeWhile isWhitespaceChar).length + 1 :=
            Nat.lt_succ_self _
          _ ≤ _ := e5
      · intro i hi hi'
        rw [e3] at hi'
        exact hws_all i hi hi'
  · -- non-whitespace: classify `c` directly
    unfold nextTokenCore
    rw [if_neg hws]
    obtain ⟨e1, e2, e3, e4, e5, e6, e7⟩ := classifyFinish_spec st c hpos hlen
    refine ⟨e1, Or.inr ⟨e2, ?_, ?_, e4, e6, e7, ?_⟩⟩
    · rw [e3]
    · rw [e3, e4]
      omega
    · intro i hi hi'
      rw [e3] at hi'
      omega

/-- One call to `next_token` from a token-start state (`tokStart = pos`):
either it returns the `Eof` token — of one of the two concrete shapes the two
`Eof` branches build — and everything left unread is whitespace, or it returns
a non-`Eof` token with a nonempty span that ends exactly at the new cursor,
preceded only by skipped whitespace. -/
theorem nextToken_step (st : Scanner) (hts : st.tokStart = st.pos)
    (hlen : st.pos ≤ st.source.length) :
    (st.nextToken).2.source = st.source ∧
    (((st.nextToken).1.kind = CTokenKind.Eof ∧
       ((st.nextToken).1 = CToken.mk .Eof (some .None) (Span.mk 0 0) ∨
        (st.nextToken).1 =
          CToken.mk .Eof (some (.Literal []))
            (Span.mk st.source.length st.source.length)) ∧
       (∀ i, st.tokStart ≤ i → i < st.source.length →
         isWhitespaceChar (st.source.getD i EOF)))
     ∨
     ((st.nextToken).1.kind ≠ CTokenKind.Eof ∧
      st.tokStart ≤ (st.nextToken).1.span.start ∧
      (st.nextToken).1.span.start < (st.nextToken).1.span.stop ∧
      (st.nextToken).1.span.stop = (st.nextToken).2.pos ∧
      (st.nextToken).2.pos ≤ st.source.length ∧
      (st.nextToken).2.tokStart = (st.nextToken).2.pos ∧
      (∀ i, st.tokStart ≤ i → i < (st.nextToken).1.span.start →
        isWhitespaceChar (st.source.getD i EOF)))) := by
  by_cases h0 : st.source.length ≤ st.pos
  · -- `advance` returns `None`: the first `Eof` branch.
    unfold nextToken
    rw [advance_eq_none st h0]
    refine ⟨rfl, Or.inl ⟨rfl, Or.inl rfl, fun i hi hi' => ?_⟩⟩
    rw [hts] at hi
    exact absurd (Nat.lt_of_le_of_lt h0 (Nat.lt_of_le_of_lt hi hi')) (Nat.lt_irrefl _)
  · have hlt : st.pos < st.source.length := Nat.lt_of_not_le h0
    unfold nextToken
    rw [advance_eq_some st hlt]
    dsimp only
    split
    · -- the consumed character was a newline: the line counter was bumped
      obtain ⟨e1, e2⟩ := nextTokenCore_spec
        { st with pos := st.pos + 1, line := st.line + 1 }
        (st.source.getD st.pos EOF) (by simp [hts]) (by simpa using hlt)
        (by show st.source.getD st.tokStart EOF = _; rw [hts])
      refine ⟨e1, ?_⟩
      rcases e2 with ⟨k, tok, w⟩ | r
      · exact Or.inl ⟨k, Or.inr tok, w⟩
      · exact Or.inr r
    · obtain ⟨e1, e2⟩ := nextTokenCore_spec { st with pos := st.pos + 1 }
        (st.source.getD st.pos EOF) (by simp [hts]) (by simpa using hlt)
        (by show st.source.getD st.tokStart EOF = _; rw [hts])
      refine ⟨e1, ?_⟩
      rcases e2 with ⟨k, tok, w⟩ | r
      · exact Or.inl ⟨k, Or.inr tok, w⟩
      · exact Or.inr r


end Scanner

/-! ## The master scan lemma -/

theorem scanAux_succ (fuel : Nat) (st : Scanner) :
    scanAux (fuel + 1) st =
      if (st.nextToken).1.kind = CTokenKind.Eof then [(st.nextToken).1]
      else (st.nextToken).1 :: scanAux fuel (st.nextToken).2 :=
  rfl

theorem spansOrdered_mono {k k' : Nat} (h : k' ≤ k) :
    ∀ {ts : List CToken}, spansOrdered k ts → spansOrdered k' ts := by
  intro ts
  cases ts with
  | nil => intro h'; trivial
  | cons t ts =>
    intro h'
    obtain ⟨h1, h2, h3⟩ := h'
    exact ⟨Nat.le_trans h h1, h2, h3⟩

/-- Induction over a whole scan from a token-start state with enough fuel:
the produced tokens are a body of non-`Eof` tokens closed by one `Eof` token;
body spans are ordered, nonempty, bounded by the input length; and every
offset from the start point on is either covered by a body token or is
whitespace. -/
theorem scanAux_master : ∀ (fuel : Nat) (st : Scanner),
    st.tokStart = st.pos → st.pos ≤ st.source.length →
    st.source.length - st.pos < fuel →
    ∃ body last, scanAux fuel st = body ++ [last] ∧
      last.kind = CTokenKind.Eof ∧
      (last = CToken.mk .Eof (some .None) (Span.mk 0 0) ∨
       last = CToken.mk .Eof (some (.Literal []))
         (Span.mk st.source.length st.source.length)) ∧
      (∀ u ∈ body, u.kind ≠ CTokenKind.Eof) ∧
      spansOrdered st.pos body ∧
      (∀ u ∈ body, u.span.stop ≤ st.source.length) ∧
      (∀ i, st.pos ≤ i → i < st.source.length →
        (∃ t ∈ body, t.span.start ≤ i ∧ i < t.span.stop) ∨
        isWhitespaceChar (st.source.getD i EOF)) := by
  intro fuel
  induction fuel with
  | zero => intro st _ _ h; omega
  | succ fuel ih =>
    intro st hts hlen hfuel
    obtain ⟨hsrc, hcase⟩ := Scanner.nextToken_step st hts hlen
    rcases hcase with ⟨hk, hshape, hws⟩ | ⟨hk, h1, h2, h3, h4, h5, h6⟩
    · -- the call returned `Eof`: the scan closes here
      refine ⟨[], (st.nextToken).1, ?_, hk, hshape, by simp, trivial, by simp, ?_⟩
      · rw [scanAux_succ, if_pos hk]
        simp
      · intro i hi1 hi2
        exact Or.inr (hws i (by omega) hi2)
    · -- a real token was produced; recurse from the new state
      have hts' : (st.nextToken).2.tokStart = (st.nextToken).2.pos := h5
      have hlen' : (st.nextToken).2.pos ≤ (st.nextToken).2.source.length := by
        rw [hsrc]; exact h4
      have hstep : st.pos < (st.nextToken).2.pos := by
        rw [← h3]
        exact Nat.lt_of_le_of_lt (by omega) h2
      have hfuel' : (st.nextToken).2.source.length - (st.nextToken).2.pos < fuel := by
        rw [hsrc]; omega
      obtain ⟨body, last, hb1, hb2, hb3, hb4, hb5, hb6, hb7⟩ :=
        ih (st.nextToken).2 hts' hlen' hfuel'
      rw [hsrc] at hb3 hb6 hb7
      refine ⟨(st.nextToken).1 :: body, last, ?_, hb2, hb3, ?_, ?_, ?_, ?_⟩
      · rw [scanAux_succ, if_neg hk, hb1]
        rfl
      · intro u hu
        rcases List.mem_cons.mp hu with rfl | hu'
        · exact hk
        · exact hb4 u hu'
      · refine ⟨by omega, h2, ?_⟩
        rw [h3]
        exact spansOrdered_mono (Nat.le_refl _) hb5
      · intro u hu
        rcases List.mem_cons.mp hu with rfl | hu'
        · rw [h3]; exact h4
        · exact hb6 u hu'
      · intro i hi1 hi2
        by_cases hcov : i < (st.nextToken).1.span.stop
        · by_cases hstart : (st.nextToken).1.span.start ≤ i
          · exact Or.inl ⟨(st.nextToken).1, List.mem_cons_self _ _, hstart, hcov⟩
          · exact Or.inr (h6 i (by omega) (Nat.lt_of_not_le hstart))
        · have hge : (st.nextToken).2.pos ≤ i := by rw [← h3]; omega
          rcases hb7 i hge hi2 with ⟨u, hu, hiu⟩ | hwsi
          · exact Or.inl ⟨u, List.mem_cons_of_mem _ hu, hiu⟩
          · exact Or.inr hwsi


theorem spansOrdered_start_ge :
    ∀ {k : Nat} {ts : List CToken}, spansOrdered k ts → ∀ b ∈ ts, k ≤ b.span.start := by
  intro k ts
  induction ts generalizing k with
  | nil => intro _ b hb; cases hb
  | cons t ts ih =>
    intro h b hb
    obtain ⟨h1, h2, h3⟩ := h
    rcases List.mem_cons.mp hb with rfl | hb'
    · exact h1
    · have := ih h3 b hb'
      omega

theorem spansOrdered_pairwise :
    ∀ {k : Nat} {ts : List CToken}, spansOrdered k ts →
      List.Pairwise (fun a b => a.span.stop ≤ b.span.start) ts := by
  intro k ts
  induction ts generalizing k with
  | nil => intro _; exact List.Pairwise.nil
  | cons t ts ih =>
    intro h
    obtain ⟨h1, h2, h3⟩ := h
    exact List.Pairwise.cons (fun b hb => spansOrdered_start_ge h3 b hb) (ih h3)

theorem spansOrdered_length :
    ∀ {ts : List CToken} {k L : Nat}, spansOrdered k ts → (∀ u ∈ ts, u.span.stop ≤ L) →
      ts.length ≤ L - k := by
  intro ts
  induction ts with
  | nil => intro k L _ _; simp
  | cons t ts ih =>
    intro k L h hb
    obtain ⟨h1, h2, h3⟩ := h
    have htL : t.span.stop ≤ L := hb t (List.mem_cons_self _ _)
    have := ih h3 (fun u hu => hb u (List.mem_cons_of_mem _ hu))
    simp only [List.length_cons]
    omega

theorem takeWhile_stops {α : Type} {p : α → Bool} :
    ∀ {l : List α} {x : α} {r : List α}, (∀ u ∈ l, p u) → ¬ p x →
      ((l ++ x :: r).takeWhile p) = l := by
  intro l
  induction l with
  | nil =>
    intro x r _ hx
    simp [List.takeWhile, hx]
  | cons a t ih =>
    intro x r hl hx
    have ha : p a := hl a (List.mem_cons_self _ _)
    simp only [List.cons_append, List.takeWhile, ha]
    show a :: List.takeWhile p (t ++ x :: r) = a :: t
    rw [ih (fun u hu => hl u (List.mem_cons_of_mem _ hu)) hx]

theorem takeWhile_all_concat {l : List CToken} {x : CToken} {p : CToken → Bool}
    (hl : ∀ u ∈ l, p u) (hx : ¬ p x) : ((l ++ [x]).takeWhile p) = l :=
  takeWhile_stops hl hx

/-- `scan` (to exhaustion) always has the shape `body ++ [eof-token]`. -/
theorem scan_master (s : List Char) :
    ∃ body last, scan s = body ++ [last] ∧
      last.kind = CTokenKind.Eof ∧
      (last = CToken.mk .Eof (some .None) (Span.mk 0 0) ∨
       last = CToken.mk .Eof (some (.Literal [])) (Span.mk s.length s.length)) ∧
      (∀ u ∈ body, u.kind ≠ CTokenKind.Eof) ∧
      spansOrdered 0 body ∧
      (∀ u ∈ body, u.span.stop ≤ s.length) ∧
      (∀ i, i < s.length →
        (∃ t ∈ body, t.span.start ≤ i ∧ i < t.span.stop) ∨
        isWhitespaceChar (s.getD i EOF)) ∧
      tokensToCaller s = body := by
  obtain ⟨body, last, hb1, hb2, hb3, hb4, hb5, hb6, hb7⟩ :=
    scanAux_master (s.length + 1) (Scanner.new s) rfl (Nat.zero_le _)
      (by show s.length - 0 < s.length + 1; omega)
  refine ⟨body, last, hb1, hb2, hb3, hb4, hb5, hb6,
    fun i hi => hb7 i (Nat.zero_le _) hi, ?_⟩
  unfold tokensToCaller scan
  rw [hb1]
  exact takeWhile_all_concat
    (fun u hu => by simpa using hb4 u hu)
    (by simpa using hb2)

/-! ## Digit discipline of integer-literal tokens (for C5) -/

theorem drop_eq_getD_cons {s : List Char} {a : Nat} (h : a < s.length) :
    s.drop a = s.getD a EOF :: s.drop (a + 1) := by
  rw [List.drop_eq_getElem_cons h]
  congr 1
  simp [List.getD_eq_getElem?_getD, List.getElem?_eq_getElem h]

theorem lexemeAt_eq_take_drop (s : List Char) (a b : Nat) :
    Scanner.lexemeAt s a b = (s.drop a).take (b - a) := by
  unfold Scanner.lexemeAt
  rw [List.drop_take]

theorem lexemeAt_length {s : List Char} {a b : Nat} (hab : a ≤ b) (hb : b ≤ s.length) :
    (Scanner.lexemeAt s a b).length = b - a := by
  rw [lexemeAt_eq_take_drop, List.length_take, List.length_drop]
  omega

theorem lexemeAt_drop (s : List Char) (a b n : Nat) :
    (Scanner.lexemeAt s a b).drop n = Scanner.lexemeAt s (a + n) b := by
  unfold Scanner.lexemeAt
  rw [List.drop_drop]

/-- Building a token out of an integer-literal kind satisfies the digit
discipline as soon as the post-prefix part of its lexeme does. -/
theorem tokenize_intOk (st2 : Scanner) (base : Base) (suf : Nat)
    (hab : st2.tokStart + suf ≤ st2.pos) (hbl : st2.pos ≤ st2.source.length)
    (hdig : ∀ x ∈ (Scanner.lexemeAt st2.source st2.tokStart st2.pos).drop suf,
      isCDigit x base) :
    intTokenOk st2.source (st2.tokenize (CTokenKind.Literal (.Int base) suf)) := by
  intro base' suf' hk
  rw [Scanner.tokenize_eq] at hk ⊢
  dsimp only at hk ⊢
  injection hk with hk1 hk2
  injection hk1 with hk1
  subst hk1
  subst hk2
  have hlen : (Scanner.lexemeAt st2.source st2.tokStart st2.pos).length =
      st2.pos - st2.tokStart := lexemeAt_length (by omega) hbl
  refine ⟨by omega, hdig, ?_⟩
  show symbolize (CTokenKind.Literal (.Int base) suf) _ = _
  unfold symbolize strSlice
  dsimp only
  rw [if_pos (by simp only [Bool.and_eq_true, decide_eq_true_eq]; omega)]
  rw [List.take_length]
  rfl

theorem isCDigit_zero (base : Base) : isCDigit '0' base := by
  cases base <;> decide

/-- A marker-prefixed digit run (`0b…`, `0x…`): the token built after
`advance_while` over a digit class satisfies the digit discipline, with
prefix length 2. -/
theorem run2_intOk (st2 : Scanner) (p : Char → Bool) (base : Base)
    (hpos2 : st2.pos = st2.tokStart + 2) (hlen2 : st2.pos ≤ st2.source.length)
    (himp : ∀ x, p x → isCDigit x base) :
    intTokenOk st2.source
      ((st2.advanceWhile p).tokenize (CTokenKind.Literal (.Int base) 2)) := by
  have htl := takeWhile_length_le p (st2.source.drop st2.pos)
  rw [List.length_drop] at htl
  refine tokenize_intOk _ base 2 ?_ ?_ ?_
  · show st2.tokStart + 2 ≤ st2.pos + ((st2.source.drop st2.pos).takeWhile p).length
    omega
  · show st2.pos + ((st2.source.drop st2.pos).takeWhile p).length ≤ st2.source.length
    omega
  · show ∀ x ∈ (Scanner.lexemeAt st2.source st2.tokStart
        (st2.pos + ((st2.source.drop st2.pos).takeWhile p).length)).drop 2,
      isCDigit x base
    intro x hx
    rw [lexemeAt_drop, lexemeAt_eq_take_drop] at hx
    rw [show st2.tokStart + 2 = st2.pos from hpos2.symm] at hx
    rw [show st2.pos + ((st2.source.drop st2.pos).takeWhile p).length - st2.pos =
      ((st2.source.drop st2.pos).takeWhile p).length from by omega] at hx
    rw [take_takeWhile_length] at hx
    exact himp x (List.mem_takeWhile_imp hx)

/-- An unmarked digit run beginning at the already-consumed digit `c`
(octal and decimal literals): prefix length 0, so the whole lexeme must be
valid digits. -/
theorem run_intOk (st : Scanner) (c : Char) (p : Char → Bool) (base : Base)
    (hpos : st.pos = st.tokStart + 1) (hlen : st.pos ≤ st.source.length)
    (hdropa : st.source.drop st.tokStart = c :: st.source.drop st.pos)
    (hcd : isCDigit c base) (himp : ∀ x, p x → isCDigit x base) :
    intTokenOk st.source
      ((st.advanceWhile p).tokenize (CTokenKind.Literal (.Int base) 0)) := by
  have htl := takeWhile_length_le p (st.source.drop st.pos)
  rw [List.length_drop] at htl
  refine tokenize_intOk _ base 0 ?_ ?_ ?_
  · show st.tokStart + 0 ≤ st.pos + ((st.source.drop st.pos).takeWhile p).length
    omega
  · show st.pos + ((st.source.drop st.pos).takeWhile p).length ≤ st.source.length
    omega
  · show ∀ x ∈ (Scanner.lexemeAt st.source st.tokStart
        (st.pos + ((st.source.drop st.pos).takeWhile p).length)).drop 0,
      isCDigit x base
    intro x hx
    rw [List.drop_zero, lexemeAt_eq_take_drop, hdropa] at hx
    rw [show st.pos + ((st.source.drop st.pos).takeWhile p).length - st.tokStart =
      ((st.source.drop st.pos).takeWhile p).length + 1 from by omega] at hx
    rw [List.take_succ_cons, take_takeWhile_length] at hx
    rcases List.mem_cons.mp hx with rfl | hx'
    · exact hcd
    · exact himp x (List.mem_takeWhile_imp hx')

/-- The integer-literal branches of the classifier only ever consume valid
digit runs: any `Int`-kind token built by `classifyFinish` satisfies
`intTokenOk`. -/
theorem classifyFinish_intTokenOk (st : Scanner) (c : Char)
    (hpos : st.pos = st.tokStart + 1) (hlen : st.pos ≤ st.source.length)
    (hc : st.source.getD st.tokStart EOF = c) :
    intTokenOk st.source ((st.classifyFinish c).1) := by
  have hdropa : st.source.drop st.tokStart = c :: st.source.drop st.pos := by
    rw [drop_eq_getD_cons (by omega), hc, hpos]
  unfold Scanner.classifyFinish
  refine Scanner.classify_cases st c
    (fun p => intTokenOk st.source (p.2.tokenize p.1)) ?_ ?_ ?_ ?_ ?_ ?_ ?_ ?_ ?_ ?_ ?_ ?_ ?_
    ?_ ?_ ?_ ?_ ?_ ?_ ?_ ?_ ?_ ?_ ?_ ?_ ?_ ?_ ?_ ?_ ?_ ?_ ?_ ?_ ?_ ?_ ?_ ?_ ?_ ?_ ?_
  case _ => intro _ base suf hk; rw [Scanner.tokenize_eq] at hk; simp [Scanner.lineComment_fst] at hk
  case _ => intro _ base suf hk; rw [Scanner.tokenize_eq] at hk; simp [Scanner.blockComment_fst] at hk
  case _ => intro base suf hk; rw [Scanner.tokenize_eq] at hk; simp at hk
  case _ => intro _ base suf hk; rw [Scanner.tokenize_eq] at hk; simp [Scanner.identifier_fst] at hk
  case _ => -- binary literal
    intro _ hfb
    have hb : st.source.drop st.pos = 'b' :: (st.source.drop st.pos).tail :=
      headD_eq_cons hfb (by decide)
    have hplt : st.pos < st.source.length := by
      by_contra hge
      rw [List.drop_eq_nil_iff.mpr (Nat.le_of_not_lt hge)] at hb
      exact List.noConfusion hb
    rw [Scanner.advance_eq_some st hplt]
    exact run2_intOk { st with pos := st.pos + 1 } isBinDigit .Binary
      (by show st.pos + 1 = st.tokStart + 2; omega)
      (by show st.pos + 1 ≤ st.source.length; omega)
      (fun x hx => isCDigit_of_isBinDigit hx)
  case _ => -- hexadecimal literal
    intro _ hfx
    have hb : st.source.drop st.pos = 'x' :: (st.source.drop st.pos).tail :=
      headD_eq_cons hfx (by decide)
    have hplt : st.pos < st.source.length := by
      by_contra hge
      rw [List.drop_eq_nil_iff.mpr (Nat.le_of_not_lt hge)] at hb
      exact List.noConfusion hb
    rw [Scanner.advance_eq_some st hplt]
    exact run2_intOk { st with pos := st.pos + 1 } isAsciiHexdigit .Hexadecimal
      (by show st.pos + 1 = st.tokStart + 2; omega)
      (by show st.pos + 1 ≤ st.source.length; omega)
      (fun x hx => isCDigit_of_isAsciiHexdigit hx)
  case _ => -- octal literal
    intro hc0 _
    exact run_intOk st c isOctDigit .Octal hpos hlen hdropa
      (by rw [hc0]; exact isCDigit_zero _)
      (fun x hx => isCDigit_of_isOctDigit hx)
  case _ => -- decimal literal via leading zero
    intro hc0
    unfold Scanner.numbers
    dsimp only
    split
    · intro base suf hk
      rw [Scanner.tokenize_eq] at hk
      simp at hk
    · exact run_intOk st c isAsciiDigit .Decimal hpos hlen hdropa
        (by rw [hc0]; exact isCDigit_zero _)
        (fun x hx => isCDigit_of_isAsciiDigit hx)
  case _ => -- decimal literal via leading nonzero digit
    intro hdec
    unfold Scanner.numbers
    dsimp only
    split
    · intro base suf hk
      rw [Scanner.tokenize_eq] at hk
      simp at hk
    · exact run_intOk st c isAsciiDigit .Decimal hpos hlen hdropa
        (isCDigit_of_isAsciiDigit hdec)
        (fun x hx => isCDigit_of_isAsciiDigit hx)
  all_goals
    first
      | (intro base suf hk
         rw [Scanner.tokenize_eq] at hk
         simp [Scanner.string_fst, Scanner.header_fst] at hk)
      | (intro hcond base suf hk
         rw [Scanner.tokenize_eq] at hk
         simp [Scanner.string_fst, Scanner.header_fst] at hk)

theorem nextTokenCore_intTokenOk (st : Scanner) (c : Char)
    (hpos : st.pos = st.tokStart + 1) (hlen : st.pos ≤ st.source.length)
    (hc : st.source.getD st.tokStart EOF = c) :
    intTokenOk st.source ((Scanner.nextTokenCore st c).1) := by
  unfold Scanner.nextTokenCore
  by_cases hws : Scanner.isWhitespaceLine c = true
  · rw [if_pos hws]
    dsimp only
    by_cases h2 : st.source.length ≤
        st.pos + ((st.source.drop st.pos).takeWhile isWhitespaceChar).length
    · rw [Scanner.advance_eq_none _ (by simpa using h2)]
      intro base suf hk
      dsimp only at hk
      rw [Scanner.tokenize_eq] at hk
      simp at hk
    · rw [Scanner.advance_eq_some _ (by simpa using Nat.lt_of_not_le h2)]
      exact classifyFinish_intTokenOk
        { st with
            pos := st.pos + ((st.source.drop st.pos).takeWhile isWhitespaceChar).length + 1,
            tokStart := st.pos + ((st.source.drop st.pos).takeWhile isWhitespaceChar).length }
        _ rfl (by simpa using Nat.lt_of_not_le h2) rfl
  · rw [if_neg hws]
    exact classifyFinish_intTokenOk st c hpos hlen hc

theorem nextToken_intTokenOk (st : Scanner) (hts : st.tokStart = st.pos)
    (hlen : st.pos ≤ st.source.length) :
    intTokenOk st.source ((st.nextToken).1) := by
  by_cases h0 : st.source.length ≤ st.pos
  · unfold Scanner.nextToken
    rw [Scanner.advance_eq_none st h0]
    intro base suf hk
    simp at hk
  · unfold Scanner.nextToken
    rw [Scanner.advance_eq_some st (Nat.lt_of_not_le h0)]
    dsimp only
    split
    · exact nextTokenCore_intTokenOk { st with pos := st.pos + 1, line := st.line + 1 } _
        (by show st.pos + 1 = st.tokStart + 1; omega)
        (by show st.pos + 1 ≤ st.source.length; omega)
        (by show st.source.getD st.tokStart EOF = _; rw [hts])
    · exact nextTokenCore_intTokenOk { st with pos := st.pos + 1 } _
        (by show st.pos + 1 = st.tokStart + 1; omega)
        (by show st.pos + 1 ≤ st.source.length; omega)
        (by show st.source.getD st.tokStart EOF = _; rw [hts])

theorem scanAux_intTokenOk : ∀ (fuel : Nat) (st : Scanner),
    st.tokStart = st.pos → st.pos ≤ st.source.length →
    ∀ t ∈ scanAux fuel st, intTokenOk st.source t := by
  intro fuel
  induction fuel with
  | zero => intro st _ _ t ht; simp [scanAux] at ht
  | succ fuel ih =>
    intro st hts hlen t ht
    rw [scanAux_succ] at ht
    by_cases hk : (st.nextToken).1.kind = CTokenKind.Eof
    · rw [if_pos hk] at ht
      rw [List.mem_singleton.mp ht]
      exact nextToken_intTokenOk st hts hlen
    · rw [if_neg hk] at ht
      rcases List.mem_cons.mp ht with rfl | ht'
      · exact nextToken_intTokenOk st hts hlen
      · obtain ⟨hsrc, hcase⟩ := Scanner.nextToken_step st hts hlen
        rcases hcase with ⟨hk', _, _⟩ | ⟨_, _, _, _, h4, h5, _⟩
        · exact absurd hk' hk
        · have hrec := ih (st.nextToken).2 h5 (by rw [hsrc]; exact h4) t ht'
          rwa [hsrc] at hrec

/-- Every integer-literal token of a full scan obeys the classifier's digit
discipline. -/
theorem scan_intTokenOk (s : List Char) : ∀ t ∈ scan s, intTokenOk s t :=
  scanAux_intTokenOk (s.length + 1) (Scanner.new s) rfl (Nat.zero_le _)

/-! ## Whole-input scans of single literals (for C6 and C7) -/

/-- A scan whose first `next_token` call consumes the entire input produces
exactly that token followed by the hard-coded `Eof` token. -/
theorem scan_two (s : List Char) (t : CToken) (st' : Scanner)
    (h : (Scanner.new s).nextToken = (t, st')) (hk : ¬ t.kind = CTokenKind.Eof)
    (hpos : s.length ≤ st'.pos) (hsrc : st'.source = s) (hlen1 : 1 ≤ s.length) :
    scan s = [t, CToken.mk .Eof (some .None) (Span.mk 0 0)] := by
  unfold scan
  obtain ⟨f, hf⟩ : ∃ f, s.length + 1 = f + 2 := ⟨s.length - 1, by omega⟩
  rw [hf, scanAux_succ, h]
  dsimp only
  rw [if_neg hk, scanAux_succ]
  unfold Scanner.nextToken
  rw [Scanner.advance_eq_none st' (by rw [hsrc]; exact hpos)]
  dsimp only
  rw [if_pos rfl]

/-- The first `next_token` call on a fresh scanner whose input starts with a
non-whitespace character goes straight to the classifier. -/
theorem nextToken_new_nonws (s : List Char) (c : Char) (rest : List Char)
    (hs : s = c :: rest) (hnl : ¬ c = '\n') (hws : Scanner.isWhitespaceLine c = false) :
    (Scanner.new s).nextToken = Scanner.classifyFinish ⟨s, 1, 0, 1⟩ c := by
  subst hs
  unfold Scanner.nextToken
  rw [show Scanner.new (c :: rest) = ⟨c :: rest, 0, 0, 1⟩ from rfl]
  rw [Scanner.advance_eq_some _ (by simp)]
  rw [show (c :: rest : List Char).getD 0 EOF = c from rfl]
  dsimp only
  rw [if_neg hnl]
  unfold Scanner.nextTokenCore
  rw [if_neg (by simp [hws])]

theorem classify_zero (st : Scanner) :
    st.classify '0' =
      (if st.first = 'b' then ((st.advance).2).numbers .Binary
       else if st.first = 'x' then ((st.advance).2).numbers .Hexadecimal
       else if ('0' ≤ st.first && st.first ≤ '7') = true then st.numbers .Octal
       else st.numbers .Decimal) := by
  unfold Scanner.classify
  rw [if_neg (by decide : ¬ ('0' : Char) = '/'),
    if_neg (by decide : ¬ isIdentifierChar '0' = true), if_pos rfl]

theorem classify_digit (st : Scanner) (c : Char) (h1 : ¬ c = '/')
    (h2 : isIdentifierChar c = false) (h3 : ¬ c = '0')
    (h4 : ('0' ≤ c && c ≤ '9') = true) :
    st.classify c = st.numbers .Decimal := by
  unfold Scanner.classify
  rw [if_neg h1, if_neg (by simp [h2]), if_neg h3, if_pos h4]

theorem classify_quote (st : Scanner) : st.classify '"' = st.string := by
  unfold Scanner.classify
  rw [if_neg (by decide), if_neg (by decide), if_neg (by decide), if_neg (by decide),
    if_neg (by decide), if_neg (by decide), if_neg (by decide), if_neg (by decide),
    if_neg (by decide), if_neg (by decide), if_neg (by decide), if_neg (by decide),
    if_neg (by decide), if_neg (by decide), if_neg (by decide), if_neg (by decide),
    if_neg (by decide), if_neg (by decide), if_neg (by decide), if_pos rfl]

theorem isAsciiDigit_not_ident {c : Char} (h : isAsciiDigit c = true) :
    isIdentifierChar c = false := by
  simp only [isAsciiDigit, Bool.and_eq_true, decide_eq_true_eq, char_le_iff,
    show ('0' : Char).toNat = 48 from rfl, show ('9' : Char).toNat = 57 from rfl] at h
  simp only [isIdentifierChar, isAsciiAlphabetic, Bool.or_eq_false_iff,
    Bool.and_eq_false_iff, decide_eq_false_iff_not, char_le_iff,
    show ('a' : Char).toNat = 97 from rfl, show ('z' : Char).toNat = 122 from rfl,
    show ('A' : Char).toNat = 65 from rfl, show ('Z' : Char).toNat = 90 from rfl]
  refine ⟨⟨Or.inl ?_, Or.inl ?_⟩, ?_⟩
  · omega
  · omega
  · intro e
    subst e
    simp at h

theorem isAsciiDigit_ne_slash {c : Char} (h : isAsciiDigit c = true) : ¬ c = '/' := by
  intro e
  subst e
  simp [isAsciiDigit] at h

/-- Decoding a full-input integer lexeme: with a valid nonempty digit run
after the prefix and no overflow, `symbolize` yields the radix value. -/
theorem symbolize_full_int (s : List Char) (base : Base) (suf : Nat) (digits : List Char)
    (hdrop : s.drop suf = digits) (hsuf : suf ≤ s.length)
    (hvalid : ∀ x ∈ digits, isCDigit x base)
    (hne : digits ≠ []) (hval : radixVal base.toNat digits < usizeBound) :
    symbolize (CTokenKind.Literal (.Int base) suf) s =
      some (.Int (radixVal base.toNat digits)) := by
  unfold symbolize strSlice
  dsimp only
  rw [if_pos (by simp only [Bool.and_eq_true, decide_eq_true_eq]; omega)]
  rw [List.take_length, hdrop, Option.some_bind]
  rw [fromStrRadix_spec base digits hvalid]
  rw [if_neg (by push_neg; exact ⟨hne, by omega⟩)]
  rfl

/-- Scanning a whole-input binary literal `0b…`. -/
theorem scan_bin_literal (ds : List Char) (hne : ds ≠ []) (hall : ∀ x ∈ ds, isBinDigit x)
    (hval : radixVal 2 ds < usizeBound) :
    scan ('0' :: 'b' :: ds) =
      [CToken.mk (.Literal (.Int .Binary) 2) (some (.Int (radixVal 2 ds)))
         (Span.mk 0 (ds.length + 2)),
       CToken.mk .Eof (some .None) (Span.mk 0 0)] := by
  have hlen : ('0' :: 'b' :: ds : List Char).length = ds.length + 2 := by simp
  have hAW : (⟨'0' :: 'b' :: ds, 2, 0, 1⟩ : Scanner).advanceWhile isBinDigit =
      ⟨'0' :: 'b' :: ds, ds.length + 2, 0, 1⟩ := by
    unfold Scanner.advanceWhile
    rw [show ('0' :: 'b' :: ds : List Char).drop 2 = ds from rfl,
      List.takeWhile_eq_self_iff.mpr hall]
    show Scanner.mk _ (2 + ds.length) _ _ = _
    rw [Nat.add_comm 2 ds.length]
  have hnum : (⟨'0' :: 'b' :: ds, 2, 0, 1⟩ : Scanner).numbers .Binary =
      (CTokenKind.Literal (.Int .Binary) 2, ⟨'0' :: 'b' :: ds, ds.length + 2, 0, 1⟩) := by
    show (CTokenKind.Literal (.Int .Binary) 2,
      (⟨'0' :: 'b' :: ds, 2, 0, 1⟩ : Scanner).advanceWhile isBinDigit) = _
    rw [hAW]
  have hcf : Scanner.classifyFinish ⟨'0' :: 'b' :: ds, 1, 0, 1⟩ '0' =
      (CToken.mk (.Literal (.Int .Binary) 2) (some (.Int (radixVal 2 ds)))
         (Span.mk 0 (ds.length + 2)),
       ⟨'0' :: 'b' :: ds, ds.length + 2, ds.length + 2, 1⟩) := by
    unfold Scanner.classifyFinish
    rw [classify_zero]
    rw [if_pos (show (⟨'0' :: 'b' :: ds, 1, 0, 1⟩ : Scanner).first = 'b' from rfl)]
    rw [Scanner.advance_eq_some _
      (by show (1 : Nat) < ('0' :: 'b' :: ds : List Char).length; rw [hlen]; omega)]
    dsimp only
    rw [hnum]
    dsimp only
    rw [Scanner.tokenize_eq]
    show (CToken.mk _
      (symbolize _ (Scanner.lexemeAt ('0' :: 'b' :: ds) 0 (ds.length + 2))) _, _) = _
    rw [show Scanner.lexemeAt ('0' :: 'b' :: ds) 0 (ds.length + 2) = '0' :: 'b' :: ds from by
      unfold Scanner.lexemeAt
      rw [← hlen, List.take_length, List.drop_zero]]
    rw [symbolize_full_int ('0' :: 'b' :: ds) .Binary 2 ds rfl (by omega)
      (fun x hx => isCDigit_of_isBinDigit (hall x hx)) hne hval]
    rfl
  have hnt : (Scanner.new ('0' :: 'b' :: ds)).nextToken =
      (CToken.mk (.Literal (.Int .Binary) 2) (some (.Int (radixVal 2 ds)))
         (Span.mk 0 (ds.length + 2)),
       ⟨'0' :: 'b' :: ds, ds.length + 2, ds.length + 2, 1⟩) := by
    rw [nextToken_new_nonws ('0' :: 'b' :: ds) '0' ('b' :: ds) rfl (by decide) (by decide)]
    exact hcf
  exact scan_two _ _ _ hnt (by intro h; simp at h) (by rw [hlen]) rfl (by rw [hlen]; omega)

/-- Scanning a whole-input hexadecimal literal `0x…`. -/
theorem scan_hex_literal (ds : List Char) (hne : ds ≠ [])
    (hall : ∀ x ∈ ds, isAsciiHexdigit x) (hval : radixVal 16 ds < usizeBound) :
    scan ('0' :: 'x' :: ds) =
      [CToken.mk (.Literal (.Int .Hexadecimal) 2) (some (.Int (radixVal 16 ds)))
         (Span.mk 0 (ds.length + 2)),
       CToken.mk .Eof (some .None) (Span.mk 0 0)] := by
  have hlen : ('0' :: 'x' :: ds : List Char).length = ds.length + 2 := by simp
  have hAW : (⟨'0' :: 'x' :: ds, 2, 0, 1⟩ : Scanner).advanceWhile isAsciiHexdigit =
      ⟨'0' :: 'x' :: ds, ds.length + 2, 0, 1⟩ := by
    unfold Scanner.advanceWhile
    rw [show ('0' :: 'x' :: ds : List Char).drop 2 = ds from rfl,
      List.takeWhile_eq_self_iff.mpr hall]
    show Scanner.mk _ (2 + ds.length) _ _ = _
    rw [Nat.add_comm 2 ds.length]
  have hnum : (⟨'0' :: 'x' :: ds, 2, 0, 1⟩ : Scanner).numbers .Hexadecimal =
      (CTokenKind.Literal (.Int .Hexadecimal) 2,
        ⟨'0' :: 'x' :: ds, ds.length + 2, 0, 1⟩) := by
    show (CTokenKind.Literal (.Int .Hexadecimal) 2,
      (⟨'0' :: 'x' :: ds, 2, 0, 1⟩ : Scanner).advanceWhile isAsciiHexdigit) = _
    rw [hAW]
  have hcf : Scanner.classifyFinish ⟨'0' :: 'x' :: ds, 1, 0, 1⟩ '0' =
      (CToken.mk (.Literal (.Int .Hexadecimal) 2) (some (.Int (radixVal 16 ds)))
         (Span.mk 0 (ds.length + 2)),
       ⟨'0' :: 'x' :: ds, ds.length + 2, ds.length + 2, 1⟩) := by
    unfold Scanner.classifyFinish
    rw [classify_zero]
    rw [if_neg (show ¬ (⟨'0' :: 'x' :: ds, 1, 0, 1⟩ : Scanner).first = 'b' from by
      show ¬ ('x' : Char) = 'b'
      decide)]
    rw [if_pos (show (⟨'0' :: 'x' :: ds, 1, 0, 1⟩ : Scanner).first = 'x' from rfl)]
    rw [Scanner.advance_eq_some _
      (by show (1 : Nat) < ('0' :: 'x' :: ds : List Char).length; rw [hlen]; omega)]
    dsimp only
    rw [hnum]
    dsimp only
    rw [Scanner.tokenize_eq]
    show (CToken.mk _
      (symbolize _ (Scanner.lexemeAt ('0' :: 'x' :: ds) 0 (ds.length + 2))) _, _) = _
    rw [show Scanner.lexemeAt ('0' :: 'x' :: ds) 0 (ds.length + 2) = '0' :: 'x' :: ds from by
      unfold Scanner.lexemeAt
      rw [← hlen, List.take_length, List.drop_zero]]
    rw [symbolize_full_int ('0' :: 'x' :: ds) .Hexadecimal 2 ds rfl (by omega)
      (fun x hx => isCDigit_of_isAsciiHexdigit (hall x hx)) hne hval]
    rfl
  have hnt : (Scanner.new ('0' :: 'x' :: ds)).nextToken =
      (CToken.mk (.Literal (.Int .Hexadecimal) 2) (some (.Int (radixVal 16 ds)))
         (Span.mk 0 (ds.length + 2)),
       ⟨'0' :: 'x' :: ds, ds.length + 2, ds.length + 2, 1⟩) := by
    rw [nextToken_new_nonws ('0' :: 'x' :: ds) '0' ('x' :: ds) rfl (by decide) (by decide)]
    exact hcf
  exact scan_two _ _ _ hnt (by intro h; simp at h) (by rw [hlen]) rfl (by rw [hlen]; omega)

/-- Scanning a whole-input decimal integer literal (leading digit `1`–`9`). -/
theorem scan_dec_literal (d : Char) (ds : List Char) (hd : isAsciiDigit d = true)
    (hne0 : ¬ d = '0') (hall : ∀ x ∈ ds, isAsciiDigit x)
    (hval : radixVal 10 (d :: ds) < usizeBound) :
    scan (d :: ds) =
      [CToken.mk (.Literal (.Int .Decimal) 0) (some (.Int (radixVal 10 (d :: ds))))
         (Span.mk 0 (ds.length + 1)),
       CToken.mk .Eof (some .None) (Span.mk 0 0)] := by
  have hlen : (d :: ds : List Char).length = ds.length + 1 := by simp
  have hAW : (⟨d :: ds, 1, 0, 1⟩ : Scanner).advanceWhile isAsciiDigit =
      ⟨d :: ds, ds.length + 1, 0, 1⟩ := by
    unfold Scanner.advanceWhile
    rw [show (d :: ds : List Char).drop 1 = ds from rfl,
      List.takeWhile_eq_self_iff.mpr hall]
    show Scanner.mk _ (1 + ds.length) _ _ = _
    rw [Nat.add_comm 1 ds.length]
  have hdrop : (d :: ds : List Char).drop (ds.length + 1) = [] := by
    rw [List.drop_eq_nil_iff]
    omega
  have hdot : ¬ (⟨d :: ds, ds.length + 1, 0, 1⟩ : Scanner).first = '.' := by
    unfold Scanner.first
    rw [hdrop]
    decide
  have hnum : (⟨d :: ds, 1, 0, 1⟩ : Scanner).numbers .Decimal =
      (CTokenKind.Literal (.Int .Decimal) 0, ⟨d :: ds, ds.length + 1, 0, 1⟩) := by
    unfold Scanner.numbers
    dsimp only
    rw [hAW, if_neg hdot]
  have hws : Scanner.isWhitespaceLine d = false := by
    simp only [isAsciiDigit, Bool.and_eq_true, decide_eq_true_eq, char_le_iff,
      show ('0' : Char).toNat = 48 from rfl, show ('9' : Char).toNat = 57 from rfl] at hd
    simp only [Scanner.isWhitespaceLine, Bool.or_eq_false_iff, decide_eq_false_iff_not]
    refine ⟨⟨⟨?_, ?_⟩, ?_⟩, ?_⟩ <;>
      · intro e
        subst e
        simp at hd
  have hnl : ¬ d = '\n' := by
    intro e
    rw [e] at hws
    simp [Scanner.isWhitespaceLine] at hws
  have hcf : Scanner.classifyFinish ⟨d :: ds, 1, 0, 1⟩ d =
      (CToken.mk (.Literal (.Int .Decimal) 0) (some (.Int (radixVal 10 (d :: ds))))
         (Span.mk 0 (ds.length + 1)),
       ⟨d :: ds, ds.length + 1, ds.length + 1, 1⟩) := by
    unfold Scanner.classifyFinish
    rw [classify_digit _ d (isAsciiDigit_ne_slash hd) (isAsciiDigit_not_ident hd) hne0 hd]
    rw [hnum]
    dsimp only
    rw [Scanner.tokenize_eq]
    show (CToken.mk _
      (symbolize _ (Scanner.lexemeAt (d :: ds) 0 (ds.length + 1))) _, _) = _
    rw [show Scanner.lexemeAt (d :: ds) 0 (ds.length + 1) = d :: ds from by
      unfold Scanner.lexemeAt
      rw [← hlen, List.take_length, List.drop_zero]]
    rw [symbolize_full_int (d :: ds) .Decimal 0 (d :: ds) rfl (by omega)
      (fun x hx => by
        rcases List.mem_cons.mp hx with rfl | hx'
        · exact isCDigit_of_isAsciiDigit hd
        · exact isCDigit_of_isAsciiDigit (hall x hx'))
      (by simp) hval]
    rfl
  have hnt : (Scanner.new (d :: ds)).nextToken =
      (CToken.mk (.Literal (.Int .Decimal) 0) (some (.Int (radixVal 10 (d :: ds))))
         (Span.mk 0 (ds.length + 1)),
       ⟨d :: ds, ds.length + 1, ds.length + 1, 1⟩) := by
    rw [nextToken_new_nonws (d :: ds) d ds rfl hnl hws]
    exact hcf
  exact scan_two _ _ _ hnt (by intro h; simp at h) (by rw [hlen]) rfl (by rw [hlen]; omega)

/-- Scanning a whole-input well-formed string literal: opening quote, body
free of quotes, closing quote. -/
theorem scan_string_literal (body : List Char) (hq : '"' ∉ body) :
    scan ('"' :: (body ++ ['"'])) =
      [CToken.mk (.Literal .Str 1) (some (.String body))
         (Span.mk 0 (body.length + 2)),
       CToken.mk .Eof (some .None) (Span.mk 0 0)] := by
  have hlen : ('"' :: (body ++ ['"']) : List Char).length = body.length + 2 := by simp
  have hAW : (⟨'"' :: (body ++ ['"']), 1, 0, 1⟩ : Scanner).advanceWhile
        (fun c => c ≠ '"') = ⟨'"' :: (body ++ ['"']), body.length + 1, 0, 1⟩ := by
    unfold Scanner.advanceWhile
    rw [show ('"' :: (body ++ ['"']) : List Char).drop 1 = body ++ '"' :: [] from rfl]
    rw [takeWhile_stops (fun u hu => by
        simp only [ne_eq, decide_eq_true_eq]
        intro e
        exact hq (e ▸ hu))
      (by simp)]
    show Scanner.mk _ (1 + body.length) _ _ = _
    rw [Nat.add_comm 1 body.length]
  have hstr : (⟨'"' :: (body ++ ['"']), 1, 0, 1⟩ : Scanner).string =
      (CTokenKind.Literal .Str 1, ⟨'"' :: (body ++ ['"']), body.length + 2, 0, 1⟩) := by
    unfold Scanner.string
    dsimp only
    rw [hAW]
    rw [Scanner.advance_eq_some _ (by
      show body.length + 1 < ('"' :: (body ++ ['"']) : List Char).length
      rw [hlen]
      omega)]
  have hcf : Scanner.classifyFinish ⟨'"' :: (body ++ ['"']), 1, 0, 1⟩ '"' =
      (CToken.mk (.Literal .Str 1) (some (.String body)) (Span.mk 0 (body.length + 2)),
       ⟨'"' :: (body ++ ['"']), body.length + 2, body.length + 2, 1⟩) := by
    unfold Scanner.classifyFinish
    rw [classify_quote, hstr]
    dsimp only
    rw [Scanner.tokenize_eq]
    show (CToken.mk _
      (symbolize _ (Scanner.lexemeAt ('"' :: (body ++ ['"'])) 0 (body.length + 2))) _,
      _) = _
    rw [show Scanner.lexemeAt ('"' :: (body ++ ['"'])) 0 (body.length + 2) =
        '"' :: (body ++ ['"']) from by
      unfold Scanner.lexemeAt
      rw [← hlen, List.take_length, List.drop_zero]]
    show (CToken.mk _
      (symbolize (CTokenKind.Literal .Str 1) ('"' :: (body ++ ['"']))) _, _) = _
    unfold symbolize strSlice
    dsimp only
    rw [if_pos (by
      simp only [Bool.and_eq_true, decide_eq_true_eq]
      rw [hlen]
      omega)]
    rw [show ('"' :: (body ++ ['"']) : List Char).length - 1 = body.length + 1 from by
      rw [hlen]
      omega]
    rw [show ('"' :: (body ++ ['"']) : List Char).take (body.length + 1) =
        '"' :: body from by
      rw [List.take_succ_cons, List.take_left]]
    rfl
  have hnt : (Scanner.new ('"' :: (body ++ ['"']))).nextToken =
      (CToken.mk (.Literal .Str 1) (some (.String body)) (Span.mk 0 (body.length + 2)),
       ⟨'"' :: (body ++ ['"']), body.length + 2, body.length + 2, 1⟩) := by
    rw [nextToken_new_nonws ('"' :: (body ++ ['"'])) '"' (body ++ ['"']) rfl (by decide)
      (by decide)]
    exact hcf
  exact scan_two _ _ _ hnt (by intro h; simp at h) (by rw [hlen]) rfl (by rw [hlen]; omega)

/-- Scanning a whole-input octal literal: `0` followed by a nonempty run of
octal digits.  The octal classifier records no prefix (`suffix_start = 0`),
so the decoded value is the whole lexeme read in radix 8 (the leading zero
contributes nothing). -/
theorem scan_oct_literal (ds : List Char) (hne : ds ≠ [])
    (hall : ∀ x ∈ ds, isOctDigit x) (hval : radixVal 8 ('0' :: ds) < usizeBound) :
    scan ('0' :: ds) =
      [CToken.mk (.Literal (.Int .Octal) 0) (some (.Int (radixVal 8 ('0' :: ds))))
         (Span.mk 0 (ds.length + 1)),
       CToken.mk .Eof (some .None) (Span.mk 0 0)] := by
  obtain ⟨d, rest, rfl⟩ : ∃ d rest, ds = d :: rest := by
    cases ds with
    | nil => exact absurd rfl hne
    | cons d rest => exact ⟨d, rest, rfl⟩
  have hd : isOctDigit d = true := hall d (List.mem_cons_self d rest)
  have hlen : ('0' :: d :: rest : List Char).length = rest.length + 2 := by simp
  have hAW : (⟨'0' :: d :: rest, 1, 0, 1⟩ : Scanner).advanceWhile isOctDigit =
      ⟨'0' :: d :: rest, rest.length + 2, 0, 1⟩ := by
    unfold Scanner.advanceWhile
    rw [show ('0' :: d :: rest : List Char).drop 1 = d :: rest from rfl,
      List.takeWhile_eq_self_iff.mpr hall]
    show Scanner.mk _ (1 + (d :: rest : List Char).length) _ _ = _
    rw [show (1 : Nat) + (d :: rest : List Char).length = rest.length + 2 from by
      simp only [List.length_cons]
      omega]
  have hnum : (⟨'0' :: d :: rest, 1, 0, 1⟩ : Scanner).numbers .Octal =
      (CTokenKind.Literal (.Int .Octal) 0, ⟨'0' :: d :: rest, rest.length + 2, 0, 1⟩) := by
    show (CTokenKind.Literal (.Int .Octal) 0,
      (⟨'0' :: d :: rest, 1, 0, 1⟩ : Scanner).advanceWhile isOctDigit) = _
    rw [hAW]
  have hb : ¬ (⟨'0' :: d :: rest, 1, 0, 1⟩ : Scanner).first = 'b' := by
    show ¬ d = 'b'
    intro e
    subst e
    exact absurd hd (by decide)
  have hx : ¬ (⟨'0' :: d :: rest, 1, 0, 1⟩ : Scanner).first = 'x' := by
    show ¬ d = 'x'
    intro e
    subst e
    exact absurd hd (by decide)
  have hoct : ('0' ≤ (⟨'0' :: d :: rest, 1, 0, 1⟩ : Scanner).first &&
      (⟨'0' :: d :: rest, 1, 0, 1⟩ : Scanner).first ≤ '7') = true := hd
  have hcf : Scanner.classifyFinish ⟨'0' :: d :: rest, 1, 0, 1⟩ '0' =
      (CToken.mk (.Literal (.Int .Octal) 0)
         (some (.Int (radixVal 8 ('0' :: d :: rest)))) (Span.mk 0 (rest.length + 2)),
       ⟨'0' :: d :: rest, rest.length + 2, rest.length + 2, 1⟩) := by
    unfold Scanner.classifyFinish
    rw [classify_zero]
    rw [if_neg hb, if_neg hx, if_pos hoct]
    rw [hnum]
    dsimp only
    rw [Scanner.tokenize_eq]
    show (CToken.mk _
      (symbolize _ (Scanner.lexemeAt ('0' :: d :: rest) 0 (rest.length + 2))) _, _) = _
    rw [show Scanner.lexemeAt ('0' :: d :: rest) 0 (rest.length + 2) =
        '0' :: d :: rest from by
      unfold Scanner.lexemeAt
      rw [← hlen, List.take_length, List.drop_zero]]
    rw [symbolize_full_int ('0' :: d :: rest) .Octal 0 ('0' :: d :: rest) rfl
      (by omega)
      (fun y hy => by
        rcases List.mem_cons.mp hy with rfl | hy'
        · decide
        · exact isCDigit_of_isOctDigit (hall y hy'))
      (by simp) hval]
    rfl
  have hnt : (Scanner.new ('0' :: d :: rest)).nextToken =
      (CToken.mk (.Literal (.Int .Octal) 0)
         (some (.Int (radixVal 8 ('0' :: d :: rest)))) (Span.mk 0 (rest.length + 2)),
       ⟨'0' :: d :: rest, rest.length + 2, rest.length + 2, 1⟩) := by
    rw [nextToken_new_nonws ('0' :: d :: rest) '0' (d :: rest) rfl (by decide) (by decide)]
    exact hcf
  exact scan_two _ _ _ hnt (by intro h; simp at h) (by rw [hlen]) rfl (by rw [hlen]; omega)

/-- Scanning a whole-input zero-leading decimal literal: `0` alone, or `0`
followed by a digit run starting with `8` or `9` (a following `0`–`7` would
take the octal branch, `b`/`x` the binary/hexadecimal ones).  Decimal records
no prefix, so the whole lexeme — leading zero included — is parsed in
radix 10. -/
theorem scan_zero_dec_literal (ds : List Char) (hall : ∀ x ∈ ds, isAsciiDigit x)
    (hhead : ∀ c ∈ ds.head?, c = '8' ∨ c = '9')
    (hval : radixVal 10 ('0' :: ds) < usizeBound) :
    scan ('0' :: ds) =
      [CToken.mk (.Literal (.Int .Decimal) 0) (some (.Int (radixVal 10 ('0' :: ds))))
         (Span.mk 0 (ds.length + 1)),
       CToken.mk .Eof (some .None) (Span.mk 0 0)] := by
  have hlen : ('0' :: ds : List Char).length = ds.length + 1 := by simp
  have hfirst : (⟨'0' :: ds, 1, 0, 1⟩ : Scanner).first = ds.headD EOF := rfl
  have hb : ¬ (⟨'0' :: ds, 1, 0, 1⟩ : Scanner).first = 'b' := by
    rw [hfirst]
    cases ds with
    | nil => decide
    | cons c rest =>
      rcases hhead c rfl with rfl | rfl
      · show ¬ ('8' : Char) = 'b'
        decide
      · show ¬ ('9' : Char) = 'b'
        decide
  have hx : ¬ (⟨'0' :: ds, 1, 0, 1⟩ : Scanner).first = 'x' := by
    rw [hfirst]
    cases ds with
    | nil => decide
    | cons c rest =>
      rcases hhead c rfl with rfl | rfl
      · show ¬ ('8' : Char) = 'x'
        decide
      · show ¬ ('9' : Char) = 'x'
        decide
  have hoct : ¬ (('0' ≤ (⟨'0' :: ds, 1, 0, 1⟩ : Scanner).first &&
      (⟨'0' :: ds, 1, 0, 1⟩ : Scanner).first ≤ '7') = true) := by
    rw [hfirst]
    cases ds with
    | nil => decide
    | cons c rest =>
      rcases hhead c rfl with rfl | rfl
      · show ¬ (('0' ≤ ('8' : Char) && ('8' : Char) ≤ '7') = true)
        decide
      · show ¬ (('0' ≤ ('9' : Char) && ('9' : Char) ≤ '7') = true)
        decide
  have hAW : (⟨'0' :: ds, 1, 0, 1⟩ : Scanner).advanceWhile isAsciiDigit =
      ⟨'0' :: ds, ds.length + 1, 0, 1⟩ := by
    unfold Scanner.advanceWhile
    rw [show ('0' :: ds : List Char).drop 1 = ds from rfl,
      List.takeWhile_eq_self_iff.mpr hall]
    show Scanner.mk _ (1 + ds.length) _ _ = _
    rw [Nat.add_comm 1 ds.length]
  have hdrop : ('0' :: ds : List Char).drop (ds.length + 1) = [] := by
    rw [List.drop_eq_nil_iff]
    omega
  have hdot : ¬ (⟨'0' :: ds, ds.length + 1, 0, 1⟩ : Scanner).first = '.' := by
    unfold Scanner.first
    rw [hdrop]
    decide
  have hnum : (⟨'0' :: ds, 1, 0, 1⟩ : Scanner).numbers .Decimal =
      (CTokenKind.Literal (.Int .Decimal) 0, ⟨'0' :: ds, ds.length + 1, 0, 1⟩) := by
    unfold Scanner.numbers
    dsimp only
    rw [hAW, if_neg hdot]
  have hcf : Scanner.classifyFinish ⟨'0' :: ds, 1, 0, 1⟩ '0' =
      (CToken.mk (.Literal (.Int .Decimal) 0)
         (some (.Int (radixVal 10 ('0' :: ds)))) (Span.mk 0 (ds.length + 1)),
       ⟨'0' :: ds, ds.length + 1, ds.length + 1, 1⟩) := by
    unfold Scanner.classifyFinish
    rw [classify_zero]
    rw [if_neg hb, if_neg hx, if_neg hoct]
    rw [hnum]
    dsimp only
    rw [Scanner.tokenize_eq]
    show (CToken.mk _
      (symbolize _ (Scanner.lexemeAt ('0' :: ds) 0 (ds.length + 1))) _, _) = _
    rw [show Scanner.lexemeAt ('0' :: ds) 0 (ds.length + 1) = '0' :: ds from by
      unfold Scanner.lexemeAt
      rw [← hlen, List.take_length, List.drop_zero]]
    rw [symbolize_full_int ('0' :: ds) .Decimal 0 ('0' :: ds) rfl (by omega)
      (fun y hy => by
        rcases List.mem_cons.mp hy with rfl | hy'
        · decide
        · exact isCDigit_of_isAsciiDigit (hall y hy'))
      (by simp) hval]
    rfl
  have hnt : (Scanner.new ('0' :: ds)).nextToken =
      (CToken.mk (.Literal (.Int .Decimal) 0)
         (some (.Int (radixVal 10 ('0' :: ds)))) (Span.mk 0 (ds.length + 1)),
       ⟨'0' :: ds, ds.length + 1, ds.length + 1, 1⟩) := by
    rw [nextToken_new_nonws ('0' :: ds) '0' ds rfl (by decide) (by decide)]
    exact hcf
  exact scan_two _ _ _ hnt (by intro h; simp at h) (by rw [hlen]) rfl (by rw [hlen]; omega)

/-! ## Claim theorems -/

/-- C1: the spec claims maximal munch for the two-character operators, with
`a--b` scanning to exactly three tokens (`a`, `--`, `b`).  Evaluating the
scanner at that input shows the bug: the classifier picks the two-character
kind from one character of lookahead but never consumes the second character,
so `a--b` yields FOUR tokens — the `--` token's span covers only the first
`-`, and the second `-` is re-scanned as a lone `Minus`. -/
theorem claim_C1_maximal_munch_bug :
    tokensToCaller ("a--b".toList) =
      [CToken.mk .Ident (some (.Literal ['a'])) (Span.mk 0 1),
       CToken.mk .MinusMinus (some (.Literal ['-'])) (Span.mk 1 2),
       CToken.mk .Minus (some (.Literal ['-'])) (Span.mk 2 3),
       CToken.mk .Ident (some (.Literal ['b'])) (Span.mk 3 4)] ∧
    ("a--b".toList).length = 4 := by
  constructor
  · decide
  · decide

/-- C2 (counterexample): token spans do not partition the source.  On the
one-character input `" "` the whole scan (the `Eof` token included) produces
only a token with the empty span `[1, 1)`, so byte offset 0 belongs to no
token's span even though it is a byte of the source. -/
theorem claim_C2_counterexample :
    scan (" ".toList) = [CToken.mk .Eof (some (.Literal [])) (Span.mk 1 1)] ∧
    (" ".toList).length = 1 ∧
    ¬ spanContains (Span.mk 1 1) 0 := by
  refine ⟨by decide, by decide, ?_⟩
  intro h
  exact absurd h.1 (by decide)

/-- C2 (amended): spans of the tokens handed to the caller are produced in
non-decreasing order with no two spans overlapping, every non-`Eof` token's
span is nonempty, and every byte offset of the source is either covered by
exactly one token's span or is a whitespace byte skipped as trivia (whitespace
is dropped by `skip_whitespace`/`reset_pos` and never covered). -/
theorem claim_C2_amended (s : List Char) :
    spansOrdered 0 (tokensToCaller s) ∧
    List.Pairwise (fun a b => a.span.stop ≤ b.span.start) (tokensToCaller s) ∧
    (∀ u ∈ tokensToCaller s, u.span.stop ≤ s.length) ∧
    (∀ i, i < s.length →
      (∃ t ∈ tokensToCaller s, spanContains t.span i) ∨
      isWhitespaceChar (s.getD i EOF)) := by
  obtain ⟨body, last, _, _, _, _, hord, hstop, hcov, hcaller⟩ := scan_master s
  rw [hcaller]
  exact ⟨hord, spansOrdered_pairwise hord, hstop, fun i hi => hcov i hi⟩

/-- C3 (counterexample): the token sequence handed to the caller does not end
with an `EndOfInput` token.  Scanning `"a"` hands the caller exactly one
token, an identifier — `iterate`'s `from_fn` closure stops at the first `Eof`
token and does not yield it. -/
theorem claim_C3_counterexample :
    tokensToCaller ("a".toList) =
      [CToken.mk .Ident (some (.Literal ['a'])) (Span.mk 0 1)] ∧
    CTokenKind.Ident ≠ CTokenKind.Eof := by
  constructor
  · decide
  · decide

/-- C3 (amended): the sequence handed to the caller by `iterate` contains no
`EndOfInput` token at all; it is the raw `next_token` sequence that ends with
exactly one `Eof` token (and contains no other). -/
theorem claim_C3_amended (s : List Char) :
    (∀ t ∈ tokensToCaller s, t.kind ≠ CTokenKind.Eof) ∧
    (∃ body last, scan s = body ++ [last] ∧ last.kind = CTokenKind.Eof ∧
      ∀ u ∈ body, u.kind ≠ CTokenKind.Eof) := by
  obtain ⟨body, last, h1, h2, _, h4, _, _, _, hcaller⟩ := scan_master s
  constructor
  · rw [hcaller]; exact h4
  · exact ⟨body, last, h1, h2, h4⟩

/-- C8 (counterexample): the `EndOfInput` token is not in general located at
the final offset.  Scanning the 1-byte input `"a"` to exhaustion ends with an
`Eof` token whose span is `[0, 0)`, not `[1, 1)`: the `None => ...` arm of
`next_token` hard-codes `Span::new(0, 0)`. -/
theorem claim_C8_counterexample :
    (scan ("a".toList)).getLast? =
      some (CToken.mk .Eof (some .None) (Span.mk 0 0)) ∧
    Span.mk 0 0 ≠ Span.mk 1 1 := by
  constructor
  · decide
  · decide

/-- C8 (amended): when the input is exhausted, `next_token` returns an
`EndOfInput` token whose span is zero-length; the span sits at the final
offset (`[len, len)`) only when exhaustion is discovered after skipping
trailing whitespace, and is the hard-coded `[0, 0)` otherwise. -/
theorem claim_C8_amended (s : List Char) :
    ∃ t, (scan s).getLast? = some t ∧ t.kind = CTokenKind.Eof ∧
      t.span.start = t.span.stop ∧
      (t.span = Span.mk 0 0 ∨ t.span = Span.mk s.length s.length) := by
  obtain ⟨body, last, h1, h2, h3, _, _, _, _, _⟩ := scan_master s
  refine ⟨last, ?_, h2, ?_, ?_⟩
  · rw [h1]
    exact List.getLast?_concat body
  · rcases h3 with rfl | rfl <;> rfl
  · rcases h3 with rfl | rfl
    · exact Or.inl rfl
    · exact Or.inr rfl

/-- C9: scanning always terminates.  From any token-start state, one call to
`next_token` either returns the `Eof` token or strictly advances the cursor,
and a scan to exhaustion reaches the `Eof` token after at most `length + 1`
calls (the token list of the full scan has at most `length + 1` entries and
its last element is the `Eof` token). -/
theorem claim_C9_termination :
    (∀ st : Scanner, st.tokStart = st.pos → st.pos ≤ st.source.length →
      ((st.nextToken).1.kind = CTokenKind.Eof ∨ st.pos < (st.nextToken).2.pos)) ∧
    (∀ s : List Char, ∃ body last, scan s = body ++ [last] ∧
      last.kind = CTokenKind.Eof ∧ (scan s).length ≤ s.length + 1) := by
  constructor
  · intro st hts hlen
    obtain ⟨_, hcase⟩ := Scanner.nextToken_step st hts hlen
    rcases hcase with ⟨hk, _, _⟩ | ⟨_, h1, h2, h3, _, _, _⟩
    · exact Or.inl hk
    · refine Or.inr ?_
      rw [← h3]
      exact Nat.lt_of_le_of_lt (by omega) h2
  · intro s
    obtain ⟨body, last, h1, h2, _, _, hord, hstop, _, _⟩ := scan_master s
    refine ⟨body, last, h1, h2, ?_⟩
    have hlb := spansOrdered_length hord hstop
    rw [h1]
    simp only [List.length_append, List.length_cons, List.length_nil]
    omega

/-- C9 (witness): the termination facts instantiated at the concrete state
`Scanner.new "a"` and the concrete input `"ab"`. -/
theorem claim_C9_termination_witness :
    (((Scanner.new ("a".toList)).nextToken).1.kind = CTokenKind.Eof ∨
      (Scanner.new ("a".toList)).pos < ((Scanner.new ("a".toList)).nextToken).2.pos) ∧
    (∃ body last, scan ("ab".toList) = body ++ [last] ∧
      last.kind = CTokenKind.Eof ∧ (scan ("ab".toList)).length ≤ ("ab".toList).length + 1) :=
  ⟨claim_C9_termination.1 (Scanner.new ("a".toList)) rfl (by decide),
   claim_C9_termination.2 ("ab".toList)⟩

/-- C10: `Span::len` returns `start + end` (not the byte length `end - start`)
and `Span::is_empty` holds exactly when `start + end = 0`; consequently `len`
agrees with the true length `end - start` only when `start = 0`, and
`is_empty` holds only for the span `[0, 0)`. -/
theorem claim_C10_span_len (a b : Nat) :
    (Span.mk a b).len = a + b ∧
    ((Span.mk a b).is_empty = true ↔ a = 0 ∧ b = 0) ∧
    (a ≤ b → ((Span.mk a b).len = b - a ↔ a = 0)) := by
  refine ⟨rfl, ?_, ?_⟩
  · simp only [Span.is_empty, beq_iff_eq]
    omega
  · intro hab
    simp only [Span.len]
    omega

/-- C10 (witness): the `Span` facts instantiated at the concrete span
`[1, 3)`, discharging the hypothesis `1 ≤ 3`. -/
theorem claim_C10_span_len_witness :
    (Span.mk 1 3).len = 1 + 3 ∧
    ((Span.mk 1 3).is_empty = true ↔ (1 : Nat) = 0 ∧ (3 : Nat) = 0) ∧
    ((Span.mk 1 3).len = 3 - 1 ↔ (1 : Nat) = 0) :=
  ⟨(claim_C10_span_len 1 3).1, (claim_C10_span_len 1 3).2.1,
   (claim_C10_span_len 1 3).2.2 (by decide)⟩

/-- C4: unterminated block comments and strings silently consume to the end of
the input.  For the block comment the claim holds: `/* abc` scans to one
block-comment token spanning the whole input, then `Eof`.  For the string the
1-byte input `"` (a lone opening quote) is a counterexample: the lexeme is the
single quote character, and `symbolize` slices `&lexeme[1..lexeme.len()-1] =
&lexeme[1..0]`, an out-of-range slice that panics (modelled by the `none`
symbol and `strSlice ['"'] 1 0 = none`). -/
theorem claim_C4_unterminated :
    scan ("/* abc".toList) =
      [CToken.mk .BlockComment (some (.Literal ['/', '*', ' ', 'a', 'b', 'c']))
         (Span.mk 0 6),
       CToken.mk .Eof (some .None) (Span.mk 0 0)] ∧
    scan ("\"".toList) =
      [CToken.mk (.Literal .Str 1) none (Span.mk 0 1),
       CToken.mk .Eof (some .None) (Span.mk 0 0)] ∧
    strSlice ['"'] 1 0 = none := by
  refine ⟨by decide, by decide, by decide⟩

/-- C5 (counterexample): the `unwrap` of `from_str_radix` in `symbolize` is
reachable.  The input `0b` scans to an integer-literal token whose post-prefix
digit run is empty, and `from_str_radix` on the empty string is an error, so
the `unwrap` panics (modelled by the `none` symbol). -/
theorem claim_C5_counterexample :
    scan ("0b".toList) =
      [CToken.mk (.Literal (.Int .Binary) 2) none (Span.mk 0 2),
       CToken.mk .Eof (some .None) (Span.mk 0 0)] ∧
    (Scanner.lexemeAt ("0b".toList) 0 2).drop 2 = [] ∧
    fromStrRadix [] 2 = none := by
  refine ⟨by decide, by decide, by decide⟩

/-- C5 (amended): whenever a scan produces an integer-literal token, every
character of the lexeme after the recorded prefix length is a digit valid for
the radix, and the decoded symbol is the radix value of that digit run exactly
when the run is nonempty and its value fits in `usize`; otherwise the `unwrap`
panics (`none`). -/
theorem claim_C5_amended (s : List Char) (t : CToken) (ht : t ∈ scan s)
    (base : Base) (suf : Nat) (hk : t.kind = CTokenKind.Literal (.Int base) suf) :
    (∀ x ∈ (Scanner.lexemeAt s t.span.start t.span.stop).drop suf, isCDigit x base) ∧
    t.symbol =
      (if (Scanner.lexemeAt s t.span.start t.span.stop).drop suf = [] ∨
          usizeBound ≤
            radixVal base.toNat
              ((Scanner.lexemeAt s t.span.start t.span.stop).drop suf)
       then none
       else some (Symbol.Int
         (radixVal base.toNat
           ((Scanner.lexemeAt s t.span.start t.span.stop).drop suf)))) := by
  obtain ⟨hsuf, hdig, hsym⟩ := scan_intTokenOk s t ht base suf hk
  refine ⟨hdig, ?_⟩
  rw [hsym, fromStrRadix_spec base _ hdig]
  by_cases h : (Scanner.lexemeAt s t.span.start t.span.stop).drop suf = [] ∨
      usizeBound ≤
        radixVal base.toNat ((Scanner.lexemeAt s t.span.start t.span.stop).drop suf)
  · rw [if_pos h, if_pos h]
    rfl
  · rw [if_neg h, if_neg h]
    rfl

theorem claim_C5_amended_witness :
    (∀ x ∈ (Scanner.lexemeAt ("0x1A".toList) 0 4).drop 2, isCDigit x Base.Hexadecimal) ∧
    (CToken.mk (.Literal (.Int .Hexadecimal) 2) (some (.Int 26))
        (Span.mk 0 4)).symbol =
      (if (Scanner.lexemeAt ("0x1A".toList) 0 4).drop 2 = [] ∨
          usizeBound ≤
            radixVal Base.Hexadecimal.toNat ((Scanner.lexemeAt ("0x1A".toList) 0 4).drop 2)
       then none
       else some (Symbol.Int
         (radixVal Base.Hexadecimal.toNat
           ((Scanner.lexemeAt ("0x1A".toList) 0 4).drop 2)))) :=
  claim_C5_amended ("0x1A".toList)
    (CToken.mk (.Literal (.Int .Hexadecimal) 2) (some (.Int 26)) (Span.mk 0 4))
    (by decide) .Hexadecimal 2 rfl

/-- C6 (counterexample): a syntactically well-formed integer literal whose
value exceeds `usize::MAX` makes the decoder's `unwrap` panic instead of
producing a value: `0x10000000000000000` (value `2^64`) scans to a
hexadecimal-literal token with `none` symbol. -/
theorem claim_C6_counterexample :
    (scan ("0x10000000000000000".toList)).head? =
      some (CToken.mk (.Literal (.Int .Hexadecimal) 2) none (Span.mk 0 19)) ∧
    usizeBound ≤ radixVal 16 ("10000000000000000".toList) := by
  refine ⟨by decide, by decide⟩

/-- C6 (amended): every single well-formed integer literal whose value fits
in `usize` scans to one integer-literal token decoding to the digit run after
the radix marker read in the literal's radix â binary `0b…` and hexadecimal
`0x…` after their two-character prefix; octal (`0` then octal digits),
decimals with leading digit `1`–`9`, and zero-leading decimals (`0` alone or
`0` then a run starting `8`/`9`) record no prefix, so their whole lexeme is
the run â followed by the `Eof` token. -/
theorem claim_C6_integer_literals :
    (∀ ds : List Char, ds ≠ [] → (∀ x ∈ ds, isBinDigit x) →
      radixVal 2 ds < usizeBound →
      scan ('0' :: 'b' :: ds) =
        [CToken.mk (.Literal (.Int .Binary) 2) (some (.Int (radixVal 2 ds)))
           (Span.mk 0 (ds.length + 2)),
         CToken.mk .Eof (some .None) (Span.mk 0 0)]) ∧
    (∀ ds : List Char, ds ≠ [] → (∀ x ∈ ds, isAsciiHexdigit x) →
      radixVal 16 ds < usizeBound →
      scan ('0' :: 'x' :: ds) =
        [CToken.mk (.Literal (.Int .Hexadecimal) 2) (some (.Int (radixVal 16 ds)))
           (Span.mk 0 (ds.length + 2)),
         CToken.mk .Eof (some .None) (Span.mk 0 0)]) ∧
    (∀ (d : Char) (ds : List Char), isAsciiDigit d = true → ¬ d = '0' →
      (∀ x ∈ ds, isAsciiDigit x) → radixVal 10 (d :: ds) < usizeBound →
      scan (d :: ds) =
        [CToken.mk (.Literal (.Int .Decimal) 0) (some (.Int (radixVal 10 (d :: ds))))
           (Span.mk 0 (ds.length + 1)),
         CToken.mk .Eof (some .None) (Span.mk 0 0)]) ∧
    (∀ ds : List Char, ds ≠ [] → (∀ x ∈ ds, isOctDigit x) →
      radixVal 8 ('0' :: ds) < usizeBound →
      scan ('0' :: ds) =
        [CToken.mk (.Literal (.Int .Octal) 0) (some (.Int (radixVal 8 ('0' :: ds))))
           (Span.mk 0 (ds.length + 1)),
         CToken.mk .Eof (some .None) (Span.mk 0 0)]) ∧
    (∀ ds : List Char, (∀ x ∈ ds, isAsciiDigit x) →
      (∀ c ∈ ds.head?, c = '8' ∨ c = '9') →
      radixVal 10 ('0' :: ds) < usizeBound →
      scan ('0' :: ds) =
        [CToken.mk (.Literal (.Int .Decimal) 0) (some (.Int (radixVal 10 ('0' :: ds))))
           (Span.mk 0 (ds.length + 1)),
         CToken.mk .Eof (some .None) (Span.mk 0 0)]) :=
  ⟨scan_bin_literal, scan_hex_literal, scan_dec_literal, scan_oct_literal,
   scan_zero_dec_literal⟩

theorem claim_C6_integer_literals_witness :
    scan ("0b101".toList) =
      [CToken.mk (.Literal (.Int .Binary) 2) (some (.Int 5)) (Span.mk 0 5),
       CToken.mk .Eof (some .None) (Span.mk 0 0)] ∧
    scan ("0x1A".toList) =
      [CToken.mk (.Literal (.Int .Hexadecimal) 2) (some (.Int 26)) (Span.mk 0 4),
       CToken.mk .Eof (some .None) (Span.mk 0 0)] ∧
    scan ("123".toList) =
      [CToken.mk (.Literal (.Int .Decimal) 0) (some (.Int 123)) (Span.mk 0 3),
       CToken.mk .Eof (some .None) (Span.mk 0 0)] ∧
    scan ("017".toList) =
      [CToken.mk (.Literal (.Int .Octal) 0) (some (.Int 15)) (Span.mk 0 3),
       CToken.mk .Eof (some .None) (Span.mk 0 0)] ∧
    scan ("0777".toList) =
      [CToken.mk (.Literal (.Int .Octal) 0) (some (.Int 511)) (Span.mk 0 4),
       CToken.mk .Eof (some .None) (Span.mk 0 0)] ∧
    scan ("0".toList) =
      [CToken.mk (.Literal (.Int .Decimal) 0) (some (.Int 0)) (Span.mk 0 1),
       CToken.mk .Eof (some .None) (Span.mk 0 0)] ∧
    scan ("09".toList) =
      [CToken.mk (.Literal (.Int .Decimal) 0) (some (.Int 9)) (Span.mk 0 2),
       CToken.mk .Eof (some .None) (Span.mk 0 0)] :=
  ⟨claim_C6_integer_literals.1 ['1', '0', '1'] (by decide) (by decide) (by decide),
   claim_C6_integer_literals.2.1 ['1', 'A'] (by decide) (by decide) (by decide),
   claim_C6_integer_literals.2.2.1 '1' ['2', '3'] (by decide) (by decide) (by decide)
     (by decide),
   claim_C6_integer_literals.2.2.2.1 ['1', '7'] (by decide) (by decide) (by decide),
   claim_C6_integer_literals.2.2.2.1 ['7', '7', '7'] (by decide) (by decide)
     (by decide),
   claim_C6_integer_literals.2.2.2.2 [] (by intro x hx; cases hx)
     (by intro c hc; cases hc) (by decide),
   claim_C6_integer_literals.2.2.2.2 ['9'] (by decide)
     (by
       intro c hc
       rw [Option.mem_def] at hc
       injection hc with h
       exact Or.inr h.symm)
     (by decide)⟩

/-- C7: for every string literal `"body"` whose body contains no double quote,
the scan yields one `Str` token whose decoded symbol is exactly the body
(quotes excluded) and whose span covers the whole literal, followed by the
`Eof` token. -/
theorem claim_C7_string_literal (body : List Char) (hq : '"' ∉ body) :
    scan ('"' :: (body ++ ['"'])) =
      [CToken.mk (.Literal .Str 1) (some (.String body))
         (Span.mk 0 (body.length + 2)),
       CToken.mk .Eof (some .None) (Span.mk 0 0)] :=
  scan_string_literal body hq

theorem claim_C7_string_literal_witness :
    scan ('"' :: (['h', 'e', 'l', 'l', 'o'] ++ ['"'])) =
      [CToken.mk (.Literal .Str 1) (some (.String ['h', 'e', 'l', 'l', 'o']))
         (Span.mk 0 7),
       CToken.mk .Eof (some .None) (Span.mk 0 0)] :=
  claim_C7_string_literal ['h', 'e', 'l', 'l', 'o'] (by decide)

end Ccr
